import Mathlib

/-!
Formal model of the laptop-backup program.

The program mirrors a configured list of absolute source paths into a
staging directory, archives the staging directory into a tar file, and
encrypts the archive with an age public key.  The repository contains two
parallel families of definitions: the library family in
src/backup_library.rs (staging root passed as a parameter, anyhow-style
message errors) and the driver family in src/main.rs (fixed staging root,
std::io errors).  Both are embedded below over a shallow model of the
filesystem: a tree of directories, regular files, symbolic links and
special nodes, with a readable flag on files and a writable flag on
directories standing for the OS permission bits, and fuel-bounded symbolic
link resolution standing for ELOOP.
-/

set_option linter.unusedVariables false

namespace LaptopBackup

/-! ## Paths -/

/-- A filesystem path: whether it is absolute, and its list of components.
Mirrors the subset of std::path::PathBuf the program uses (no dot or
dot-dot components ever arise in it). -/
structure RPath where
  absolute : Bool
  comps : List String
deriving DecidableEq, Repr

/-- Path::join: an absolute argument replaces the base, a relative one is
appended. -/
def RPath.join (p q : RPath) : RPath :=
  if q.absolute then q else ⟨p.absolute, p.comps ++ q.comps⟩

/-- PathBuf::push of a single file name. -/
def RPath.push (p : RPath) (c : String) : RPath :=
  ⟨p.absolute, p.comps ++ [c]⟩

/-- Path::file_name: the final component, if any. -/
def RPath.fileName (p : RPath) : Option String :=
  p.comps.getLast?

/-- Path::parent: drop the final component; the root and the empty path
have no parent. -/
def RPath.parent (p : RPath) : Option RPath :=
  match p.comps with
  | [] => none
  | _ :: _ => some ⟨p.absolute, p.comps.dropLast⟩

/-- Path::display rendering used when the program formats a path into a
string. -/
def RPath.display (p : RPath) : String :=
  (if p.absolute then ("/") else ("")) ++ String.intercalate ("/") p.comps

/-- Path::strip_prefix with Component::RootDir: succeeds exactly on
absolute paths and drops the leading root separator. -/
def stripRootDir (p : RPath) : Option RPath :=
  if p.absolute then some ⟨false, p.comps⟩ else none

/-! ## File names and extensions -/

/-- Split a list of characters at its final dot: the characters before it
and the characters after it. -/
def splitLastDot : List Char → Option (List Char × List Char)
  | [] => none
  | c :: cs =>
    match splitLastDot cs with
    | some (b, a) => some (c :: b, a)
    | none => if c = '.' then some ([], cs) else none

/-- Path::file_stem on a single file name: the portion before the final
dot, except that a name whose only dot is leading is its own stem. -/
def stemChars (cs : List Char) : List Char :=
  match splitLastDot cs with
  | some (b, _) => if b = [] then cs else b
  | none => cs

/-- Path::extension on a single file name. -/
def extChars (cs : List Char) : Option (List Char) :=
  match splitLastDot cs with
  | some (b, a) => if b = [] then none else some a
  | none => none

/-- Path::with_extension on a single file name, for a non-empty new
extension: the stem followed by a dot and the new extension. -/
def withExtName (s e : String) : String :=
  String.mk (stemChars s.data ++ '.' :: e.data)

/-- Path::with_extension: replace the extension of the final component;
a path without a final component is returned unchanged. -/
def RPath.withExtension (p : RPath) (e : String) : RPath :=
  match p.comps.getLast? with
  | none => p
  | some last => ⟨p.absolute, p.comps.dropLast ++ [withExtName last e]⟩

/-- The archive file path built by zip_files_in_folder from
format!("{}-{}.tar", folder.display(), timestamp): rendering the folder
path, appending the dash, the timestamp and the .tar suffix, and parsing
the string back as a path extends the final component (or creates the
single component when the folder path has none). -/
def tarName (folder : RPath) (timestamp : String) : RPath :=
  match folder.comps.getLast? with
  | none => ⟨folder.absolute, [("-") ++ timestamp ++ (".tar")]⟩
  | some last =>
    ⟨folder.absolute, folder.comps.dropLast ++ [last ++ ("-") ++ timestamp ++ (".tar")]⟩

/-! ## Configuration loading (src/config_handler.rs) -/

/-- Rust str::lines splitting on a list of characters: segments between
newline characters. -/
def splitNl : List Char → List (List Char)
  | [] => [[]]
  | c :: cs =>
    if c = '\n' then [] :: splitNl cs
    else
      match splitNl cs with
      | s :: rest => (c :: s) :: rest
      | [] => [[c]]

/-- Strip one trailing carriage return, as str::lines does per line. -/
def dropCr (cs : List Char) : List Char :=
  match cs.getLast? with
  | some '\r' => cs.dropLast
  | _ => cs

/-- Rust str::lines: split on newline, drop a final empty segment (the
newline is a terminator), strip one trailing carriage return per line. -/
def rustLines (s : String) : List String :=
  let segs := splitNl s.data
  let segs :=
    match segs.getLast? with
    | some [] => segs.dropLast
    | _ => segs
  segs.map (fun cs => String.mk (dropCr cs))

/-- load_paths_from_file, as a function of the contents of the paths file
(fs::read_to_string is the collaborator that produced the contents): one
entry per line, pushed in order, unmodified. -/
def load_paths_from_file (path_file_contents : String) : List String :=
  rustLines path_file_contents

/-- load_public_key_from_file, as a function of the contents of the key
file: the contents are returned as they are. -/
def load_public_key_from_file (public_key_file_contents : String) : String :=
  public_key_file_contents

/-! ## Filesystem model -/

/-- A filesystem node: a regular file with its bytes and a readable flag
(permission to open for reading), a directory with named entries and a
writable flag (permission to create or unlink entries and to remove the
directory), a symbolic link with its target path, or a special node
(device, socket, and so on). -/
inductive Node where
  | file (data : List Nat) (readable : Bool)
  | dir (entries : List (String × Node)) (writable : Bool)
  | link (target : RPath)
  | special
deriving Repr

/-- The filesystem state: the root directory tree and the canonical
components of the current working directory, against which relative paths
resolve. -/
structure FS where
  root : Node
  cwd : List String
deriving Repr

/-- Look an entry up by name in a directory entry list. -/
def lookupEntry : List (String × Node) → String → Option Node
  | [], _ => none
  | (n, x) :: rest, c => if n = c then some x else lookupEntry rest c

/-- Replace the entry named c (or append it) in a directory entry list. -/
def setEntry : List (String × Node) → String → Node → List (String × Node)
  | [], c, x => [(c, x)]
  | (n, y) :: rest, c, x =>
    if n = c then (c, x) :: rest else (n, y) :: setEntry rest c x

/-- Remove the entry named c from a directory entry list. -/
def removeEntry : List (String × Node) → String → List (String × Node)
  | [], _ => []
  | (n, y) :: rest, c => if n = c then rest else (n, y) :: removeEntry rest c

/-- Follow a component list down the tree without following links: links
and special nodes are opaque leaves here. -/
def lookupPlain (n : Node) : List String → Option Node
  | [] => some n
  | c :: cs =>
    match n with
    | Node.dir es _ =>
      (match lookupEntry es c with
       | some x => lookupPlain x cs
       | none => none)
    | _ => none

/-- Replace the node at a plain component path, rebuilding the directory
spine; fails when the path does not lead through existing directories. -/
def replaceAt (n : Node) : List String → Node → Option Node
  | [], x => some x
  | c :: rest, x =>
    match n with
    | Node.dir es w =>
      (match lookupEntry es c with
       | some y =>
         (match replaceAt y rest x with
          | some y' => some (Node.dir (setEntry es c y') w)
          | none => none)
       | none => none)
    | _ => none

/-- Fuel bound on symbolic link traversal during path resolution, standing
for the ELOOP limit of the OS. -/
def canonFuel : Nat := 64

/-- One plain segment of canonical path resolution: walk the components
left to right from the canonical components resolved so far, stopping at
the first symbolic link, which is returned with the rest of the walk;
missing components resolve to none, as fs::canonicalize fails there. -/
def canonStep (fs : FS) : List String → List String →
    Option (List String ⊕ List String × RPath × List String)
  | done, [] => some (Sum.inl done)
  | done, c :: rest =>
    match lookupPlain fs.root (done ++ [c]) with
    | some (Node.link t) => some (Sum.inr (done, t, rest))
    | some _ => canonStep fs (done ++ [c]) rest
    | none => none

/-- Canonical path resolution: walk plain segments, restarting at each
symbolic link with its target.  Fuel is spent on link traversal only;
exhausted fuel models ELOOP and resolves to none. -/
def canonGo (fs : FS) (fuel : Nat) (done todo : List String) : Option (List String) :=
  match canonStep fs done todo with
  | some (Sum.inl done') => some done'
  | some (Sum.inr (done', t, rest)) =>
    match fuel with
    | 0 => none
    | fuel + 1 => canonGo fs fuel (if t.absolute then [] else done') (t.comps ++ rest)
  | none => none

/-- The absolute components a path denotes: relative paths resolve against
the current working directory. -/
def FS.absComps (fs : FS) (p : RPath) : List String :=
  if p.absolute then p.comps else fs.cwd ++ p.comps

/-- fs::canonicalize. -/
def FS.canon (fs : FS) (p : RPath) : Option (List String) :=
  canonGo fs canonFuel [] (fs.absComps p)

/-- Metadata lookup following links, as fs::metadata: the node a path
finally resolves to. -/
def FS.stat (fs : FS) (p : RPath) : Option Node :=
  match fs.canon p with
  | some cs => lookupPlain fs.root cs
  | none => none

/-- Path::is_dir: follows links, false on any resolution error. -/
def FS.isDir (fs : FS) (p : RPath) : Bool :=
  match fs.stat p with
  | some (Node.dir _ _) => true
  | _ => false

/-- Path::is_file: follows links, false on any resolution error. -/
def FS.isFile (fs : FS) (p : RPath) : Bool :=
  match fs.stat p with
  | some (Node.file _ _) => true
  | _ => false

/-- Replace the entry named c of the directory at canonical components pc
with node x, requiring the directory to exist. -/
def FS.setAt (fs : FS) (pc : List String) (c : String) (x : Node) : Option FS :=
  match lookupPlain fs.root pc with
  | some (Node.dir es w) =>
    match replaceAt fs.root pc (Node.dir (setEntry es c x) w) with
    | some root' => some ⟨root', fs.cwd⟩
    | none => none
  | _ => none

/-- Remove the entry named c of the directory at canonical components pc. -/
def FS.delAt (fs : FS) (pc : List String) (c : String) : Option FS :=
  match lookupPlain fs.root pc with
  | some (Node.dir es w) =>
    match replaceAt fs.root pc (Node.dir (removeEntry es c) w) with
    | some root' => some ⟨root', fs.cwd⟩
    | none => none
  | _ => none

/-- The canonical components of the parent of a path together with its
final name; fails on a path with no final component or whose parent does
not resolve. -/
def FS.parentAndName (fs : FS) (p : RPath) : Option (List String × String) :=
  let a := fs.absComps p
  match a.getLast? with
  | none => none
  | some c =>
    match canonGo fs canonFuel [] a.dropLast with
    | some pc => some (pc, c)
    | none => none

/-- Step of fs::create_dir_all: walk the remaining components from the
canonical base, descending through existing directories, resolving links,
and creating missing directories in writable parents. -/
def FS.createDirAllGo (fs : FS) (fuel : Nat) (baseC : List String) :
    List String → Option FS
  | [] => some fs
  | c :: rest =>
    match lookupPlain fs.root baseC with
    | some (Node.dir es w) =>
      match lookupEntry es c with
      | some (Node.dir _ _) => fs.createDirAllGo fuel (baseC ++ [c]) rest
      | some (Node.link t) =>
        match canonGo fs fuel (if t.absolute then [] else baseC) t.comps with
        | some tc =>
          match lookupPlain fs.root tc with
          | some (Node.dir _ _) => fs.createDirAllGo fuel tc rest
          | _ => none
        | none => none
      | some _ => none
      | none =>
        if w then
          match fs.setAt baseC c (Node.dir [] true) with
          | some fs' => fs'.createDirAllGo fuel (baseC ++ [c]) rest
          | none => none
        else none
    | _ => none

/-- fs::create_dir_all: create a directory and all missing ancestors; an
empty relative path is a no-op as in std. -/
def FS.createDirAll (fs : FS) (p : RPath) : Option FS :=
  if p.comps = [] ∧ p.absolute = false then some fs
  else fs.createDirAllGo canonFuel [] (fs.absComps p)

/-- Open a file for reading and read it fully: resolves the path, requires
a readable regular file. -/
def FS.readFileData (fs : FS) (p : RPath) : Option (List Nat) :=
  match fs.stat p with
  | some (Node.file d true) => some d
  | _ => none

/-- File::create followed by writing the given bytes: truncates an
existing regular file, creates a missing entry in a writable parent
directory, fails when the target exists as anything else. -/
def FS.writeFile (fs : FS) (p : RPath) (d : List Nat) : Option FS :=
  match fs.parentAndName p with
  | none => none
  | some (pc, c) =>
    match lookupPlain fs.root pc with
    | some (Node.dir es w) =>
      match lookupEntry es c with
      | some (Node.file _ _) => fs.setAt pc c (Node.file d true)
      | some _ => none
      | none => if w then fs.setAt pc c (Node.file d true) else none
    | _ => none

/-- fs::copy: read the source fully, then create the destination and write
the bytes. -/
def FS.copyFile (fs : FS) (src dst : RPath) : Option FS :=
  match fs.readFileData src with
  | some d => fs.writeFile dst d
  | none => none

/-- fs::remove_file: unlink a regular file or symbolic link entry from its
writable parent directory. -/
def FS.removeFile (fs : FS) (p : RPath) : Option FS :=
  match fs.parentAndName p with
  | none => none
  | some (pc, c) =>
    match lookupPlain fs.root pc with
    | some (Node.dir es w) =>
      if w then
        match lookupEntry es c with
        | some (Node.file _ _) => fs.delAt pc c
        | some (Node.link _) => fs.delAt pc c
        | _ => none
      else none
    | _ => none

mutual
/-- Whether every directory in a subtree is writable, so that
fs::remove_dir_all can empty and unlink all of it. -/
def Node.allRemovable : Node → Bool
  | Node.dir es w => w && entsRemovable es
  | _ => true

/-- Pointwise Node.allRemovable over an entry list. -/
def entsRemovable : List (String × Node) → Bool
  | [] => true
  | (_, x) :: rest => x.allRemovable && entsRemovable rest
end

/-- fs::remove_dir_all: remove a directory and its contents; requires a
writable parent, a directory target, and every directory below it to be
writable. -/
def FS.removeDirAll (fs : FS) (p : RPath) : Option FS :=
  match fs.parentAndName p with
  | none => none
  | some (pc, c) =>
    match lookupPlain fs.root pc with
    | some (Node.dir es w) =>
      match lookupEntry es c with
      | some (x@(Node.dir _ _)) =>
        if w && x.allRemovable then fs.delAt pc c else none
      | _ => none
    | _ => none

mutual
/-- A concrete serialization of a subtree, standing for the tar container
bytes the archive codec collaborator produces. -/
def Node.encode : Node → List Nat
  | Node.file d _ => 0 :: d.length :: d
  | Node.dir es w => 1 :: (if w then 1 else 0) :: es.length :: entsEncode es
  | Node.link t => 2 :: t.comps.length :: t.comps.map String.length
  | Node.special => [3]

/-- Pointwise Node.encode over an entry list. -/
def entsEncode : List (String × Node) → List Nat
  | [] => []
  | (n, x) :: rest => n.length :: (n.data.map Char.toNat) ++ Node.encode x ++ entsEncode rest
end

/-! ## Diagnostics and errors -/

/-- Diagnostics the program prints while continuing to run. -/
inductive Diag where
  | skipNonRegular (p : RPath)
  | skipNoName (p : RPath)
  | copyFailed (src dst : RPath)
  | removeFolderFailed (p : RPath)
  | zipCreateFailed (p : RPath)
  | zipAppendFailed (p : RPath)
  | zipFinishFailed (p : RPath)
deriving DecidableEq, Repr

/-- Errors of the library family (anyhow-style, message-tagged, carrying
no std::io::ErrorKind). -/
inductive BErr where
  | notAbsolute (p : RPath)
  | fileNotExists (p : RPath)
  | notADir (p : RPath)
  | noParent (p : RPath)
  | createDirFailed (p : RPath)
  | readDirFailed (p : RPath)
  | walkFailed (p : RPath)
  | canonFailed (p : RPath)
  | archiveCreateFailed (p : RPath)
  | archiveAppendFailed (p : RPath)
  | removeDirFailed (p : RPath)
  | invalidRecipient (key : String)
  | openFailed (p : RPath)
  | createFailed (p : RPath)
  | removeFileFailed (p : RPath)
deriving DecidableEq, Repr

/-- The std::io::ErrorKind values the driver family can construct or
receive. -/
inductive IoKind where
  | notFound
  | permissionDenied
  | invalidInput
  | other
deriving DecidableEq, Repr

/-- A std::io::Error: its kind and its message. -/
structure IoError where
  kind : IoKind
  msg : String
deriving DecidableEq, Repr

/-- The result of one mirroring call: its outcome, the filesystem
afterwards, and the diagnostics printed, in order.  The surrounding Option
is the fuel bound on recursion through symlinked directories: none models
the run that never returns. -/
abbrev BkResult := Except BErr Unit × FS × List Diag

/-! ## The library mirror family (src/backup_library.rs) -/

/-- build_full_backup_path: strip the leading root separator from the
source path and re-parent it under the backup folder path. -/
def build_full_backup_path (source_path backup_folder_path : RPath) : RPath :=
  backup_folder_path.join ((stripRootDir source_path).getD source_path)

/-- create_folder_in_backup_structure: compute the re-parented destination
of a source directory and create it and all its ancestors. -/
def create_folder_in_backup_structure (source_path_folder backup_folder_path : RPath)
    (fs : FS) : Except BErr (RPath × FS) :=
  let relative_source_path := (stripRootDir source_path_folder).getD source_path_folder
  let full_backup_folder_path := backup_folder_path.join relative_source_path
  match fs.createDirAll full_backup_folder_path with
  | some fs' => Except.ok (full_backup_folder_path, fs')
  | none => Except.error (BErr.createDirFailed full_backup_folder_path)

mutual
/-- copy_file_from_folder: recurse into directories, skip non-regular
entries with a notice, copy regular files and only report a failed copy.
Fuel bounds the recursion through symlinked directories: it is spent on
every mutual call, and running out models the run that never returns. -/
def copy_file_from_folder : Nat → RPath → RPath → RPath → FS → Option BkResult
  | 0, _, _, _, _ => none
  | fuel + 1, file, destination_folder, backup_folder_path, fs =>
    if fs.isDir file then
      backup_folder fuel file backup_folder_path fs
    else if fs.isFile file = false then
      some (Except.ok (), fs, [Diag.skipNonRegular file])
    else
      match file.fileName with
      | some file_name =>
        let file_destination := destination_folder.push file_name
        match fs.copyFile file file_destination with
        | some fs' => some (Except.ok (), fs', [])
        | none => some (Except.ok (), fs, [Diag.copyFailed file file_destination])
      | none => some (Except.ok (), fs, [Diag.skipNoName file])

/-- backup_folder: mirror one directory: ensure its re-parented
destination exists, then walk the directory at depth one (the walk yields
the directory itself first, then its children). -/
def backup_folder : Nat → RPath → RPath → FS → Option BkResult
  | 0, _, _, _ => none
  | fuel + 1, folder, backup_folder_path, fs =>
    if fs.isDir folder = false then
      some (Except.error (BErr.notADir folder), fs, [])
    else
      match create_folder_in_backup_structure folder backup_folder_path fs with
      | Except.error e => some (Except.error e, fs, [])
      | Except.ok (full_backup_folder_path, fs₁) =>
        match fs₁.stat folder with
        | some (Node.dir entries _) =>
          walkEntries fuel (folder :: entries.map (fun e => folder.push e.1))
            folder full_backup_folder_path backup_folder_path fs₁
        | _ => some (Except.error (BErr.walkFailed folder), fs₁, [])

/-- Loop body of backup_folder over the walked entries: child directories
recurse unless their canonical path equals the canonical path of the
walked folder (the symlink self-reference guard); other entries go through
copy_file_from_folder.  Errors abort the walk, diagnostics accumulate. -/
def walkEntries : Nat → List RPath → RPath → RPath → RPath → FS → Option BkResult
  | _, [], _, _, _, fs => some (Except.ok (), fs, [])
  | 0, _ :: _, _, _, _, _ => none
  | fuel + 1, e :: rest, folder, full_backup_folder_path, backup_folder_path, fs =>
    if fs.isDir e then
      match fs.canon e, fs.canon folder with
      | some ce, some cf =>
        if ce ≠ cf then
          match backup_folder fuel e backup_folder_path fs with
          | some (Except.ok (), fs', d) =>
            match walkEntries fuel rest folder full_backup_folder_path backup_folder_path fs' with
            | some (r, fs'', d') => some (r, fs'', d ++ d')
            | none => none
          | some (Except.error er, fs', d) => some (Except.error er, fs', d)
          | none => none
        else
          walkEntries fuel rest folder full_backup_folder_path backup_folder_path fs
      | _, _ => some (Except.error (BErr.canonFailed e), fs, [])
    else
      match copy_file_from_folder fuel e full_backup_folder_path backup_folder_path fs with
      | some (Except.ok (), fs', d) =>
        match walkEntries fuel rest folder full_backup_folder_path backup_folder_path fs' with
        | some (r, fs'', d') => some (r, fs'', d ++ d')
        | none => none
      | some (Except.error er, fs', d) => some (Except.error er, fs', d)
      | none => none
end

/-- Loop of backup_directory_contents over the entries of fs::read_dir:
each entry goes through copy_file_from_folder, errors abort the loop,
diagnostics accumulate. -/
def readDirLoop (fuel : Nat) (entries : List RPath)
    (full_backup_folder_path backup_folder_path : RPath) (fs : FS) : Option BkResult :=
  match entries with
  | [] => some (Except.ok (), fs, [])
  | e :: rest =>
    match copy_file_from_folder fuel e full_backup_folder_path backup_folder_path fs with
    | some (Except.ok (), fs', d) =>
      match readDirLoop fuel rest full_backup_folder_path backup_folder_path fs' with
      | some (r, fs'', d') => some (r, fs'', d ++ d')
      | none => none
    | some (Except.error er, fs', d) => some (Except.error er, fs', d)
    | none => none

/-- backup_file: mirror one regular file: the re-parented destination of
the full source path names the copied file, its parent chain is created,
and the file is copied into it under its own name. -/
def backup_file (fuel : Nat) (source_path backup_folder_path : RPath) (fs : FS) :
    Option BkResult :=
  if fs.isFile source_path = false then
    some (Except.error (BErr.fileNotExists source_path), fs, [])
  else
    let full_backup_folder_path := build_full_backup_path source_path backup_folder_path
    match full_backup_folder_path.parent with
    | none => some (Except.error (BErr.noParent full_backup_folder_path), fs, [])
    | some parent_dir =>
      match fs.createDirAll parent_dir with
      | none => some (Except.error (BErr.createDirFailed parent_dir), fs, [])
      | some fs₁ =>
        copy_file_from_folder fuel source_path parent_dir backup_folder_path fs₁

/-- backup_directory_contents: the public mirror entry point: reject a
relative source, treat a non-directory source as a single file, otherwise
create the re-parented destination directory and mirror every child listed
by fs::read_dir. -/
def backup_directory_contents (fuel : Nat) (source_path backup_folder_path : RPath)
    (fs : FS) : Option BkResult :=
  if source_path.absolute = false then
    some (Except.error (BErr.notAbsolute source_path), fs, [])
  else if fs.isDir source_path = false then
    backup_file fuel source_path backup_folder_path fs
  else
    let full_backup_folder_path := build_full_backup_path source_path backup_folder_path
    match fs.createDirAll full_backup_folder_path with
    | none => some (Except.error (BErr.createDirFailed full_backup_folder_path), fs, [])
    | some fs₁ =>
      match fs₁.stat source_path with
      | some (Node.dir entries _) =>
        readDirLoop fuel (entries.map (fun e => source_path.push e.1))
          full_backup_folder_path backup_folder_path fs₁
      | _ => some (Except.error (BErr.readDirFailed source_path), fs₁, [])

/-! ## Archiving and encryption (library family) -/

/-- zip_files_in_folder: create the timestamped tar file, serialize the
staging folder into it, finish the archive, then recursively delete the
staging folder; a deletion failure is turned into an error with context
and propagated. -/
def zip_files_in_folder (backup_folder_path : RPath) (timestamp : String) (fs : FS) :
    Except BErr RPath × FS :=
  let filename := tarName backup_folder_path timestamp
  match fs.writeFile filename [] with
  | none => (Except.error (BErr.archiveCreateFailed filename), fs)
  | some fs₁ =>
    match fs₁.stat backup_folder_path with
    | some (tree@(Node.dir _ _)) =>
      match fs₁.writeFile filename tree.encode with
      | none => (Except.error (BErr.archiveAppendFailed backup_folder_path), fs₁)
      | some fs₂ =>
        match fs₂.removeDirAll backup_folder_path with
        | some fs₃ => (Except.ok filename, fs₃)
        | none => (Except.error (BErr.removeDirFailed backup_folder_path), fs₂)
    | _ => (Except.error (BErr.archiveAppendFailed backup_folder_path), fs₁)

/-- Modelled from the spec: the age recipient parser of the encryption
collaborator (§6), abstracted to an executable validity test on the key
string; the program only depends on whether parsing succeeds. -/
def isValidAgeKey (key : String) : Bool :=
  decide (key.data.take 4 = ('a' :: 'g' :: 'e' :: '1' :: [])) && decide (4 < key.data.length)

/-- Modelled from the spec: the age streaming encryption transform
(§6), abstracted to a deterministic function of the recipient key and the
plaintext bytes producing the self-describing ciphertext bytes. -/
def ageEncrypt (key : String) (data : List Nat) : List Nat :=
  key.length :: data

/-- encrypt_file (library): parse the recipient key, open the input file,
create the output file named by replacing the extension with tar.age,
stream the ciphertext into it, finish it, then remove the plaintext input
file. -/
def encrypt_file (input_file_path : RPath) (public_key : String) (fs : FS) :
    Except BErr Unit × FS :=
  let output_filename := input_file_path.withExtension ("tar.age")
  if isValidAgeKey public_key = false then
    (Except.error (BErr.invalidRecipient public_key), fs)
  else
    match fs.readFileData input_file_path with
    | none => (Except.error (BErr.openFailed input_file_path), fs)
    | some d =>
      match fs.writeFile output_filename [] with
      | none => (Except.error (BErr.createFailed output_filename), fs)
      | some fs₁ =>
        match fs₁.writeFile output_filename (ageEncrypt public_key d) with
        | none => (Except.error (BErr.createFailed output_filename), fs₁)
        | some fs₂ =>
          match fs₂.removeFile input_file_path with
          | some fs₃ => (Except.ok (), fs₃)
          | none => (Except.error (BErr.removeFileFailed input_file_path), fs₂)

/-! ## The driver family (src/main.rs) -/

namespace Main

/-- The fixed staging root of the driver, a path relative to the working
directory. -/
def BACKUP_FOLDER_PATH : RPath := ⟨false, [("laptop-backup")]⟩

/-- The result of one driver mirroring call. -/
abbrev MResult := Except IoError Unit × FS × List Diag

/-- create_folder_in_backup_structure (driver): as the library version,
with the fixed staging root. -/
def create_folder_in_backup_structure (source_path_folder : RPath) (fs : FS) :
    Except IoError (RPath × FS) :=
  let relative_source_path := (stripRootDir source_path_folder).getD source_path_folder
  let full_backup_folder_path := BACKUP_FOLDER_PATH.join relative_source_path
  match fs.createDirAll full_backup_folder_path with
  | some fs' => Except.ok (full_backup_folder_path, fs')
  | none =>
    Except.error ⟨IoKind.other, ("could not create ") ++ full_backup_folder_path.display⟩

mutual
/-- copy_file_from_folder (driver): as the library version, against the
fixed staging root. -/
def copy_file_from_folder : Nat → RPath → RPath → FS → Option MResult
  | 0, _, _, _ => none
  | fuel + 1, file, destination_folder, fs =>
    if fs.isDir file then
      backup_folder fuel file fs
    else if fs.isFile file = false then
      some (Except.ok (), fs, [Diag.skipNonRegular file])
    else
      match file.fileName with
      | some file_name =>
        let file_destination := destination_folder.push file_name
        match fs.copyFile file file_destination with
        | some fs' => some (Except.ok (), fs', [])
        | none => some (Except.ok (), fs, [Diag.copyFailed file file_destination])
      | none => some (Except.ok (), fs, [Diag.skipNoName file])

/-- backup_folder (driver): as the library version, against the fixed
staging root. -/
def backup_folder : Nat → RPath → FS → Option MResult
  | 0, _, _ => none
  | fuel + 1, folder, fs =>
    if fs.isDir folder = false then
      some (Except.error ⟨IoKind.other,
        ("source path ") ++ folder.display ++ (" is not a directory")⟩, fs, [])
    else
      match create_folder_in_backup_structure folder fs with
      | Except.error e => some (Except.error e, fs, [])
      | Except.ok (full_backup_folder_path, fs₁) =>
        match fs₁.stat folder with
        | some (Node.dir entries _) =>
          walkEntries fuel (folder :: entries.map (fun e => folder.push e.1))
            folder full_backup_folder_path fs₁
        | _ =>
          some (Except.error ⟨IoKind.other, ("walk failed on ") ++ folder.display⟩, fs₁, [])

/-- Loop body of the driver backup_folder over the walked entries. -/
def walkEntries : Nat → List RPath → RPath → RPath → FS → Option MResult
  | _, [], _, _, fs => some (Except.ok (), fs, [])
  | 0, _ :: _, _, _, _ => none
  | fuel + 1, e :: rest, folder, full_backup_folder_path, fs =>
    if fs.isDir e then
      match fs.canon e, fs.canon folder with
      | some ce, some cf =>
        if ce ≠ cf then
          match backup_folder fuel e fs with
          | some (Except.ok (), fs', d) =>
            match walkEntries fuel rest folder full_backup_folder_path fs' with
            | some (r, fs'', d') => some (r, fs'', d ++ d')
            | none => none
          | some (Except.error er, fs', d) => some (Except.error er, fs', d)
          | none => none
        else
          walkEntries fuel rest folder full_backup_folder_path fs
      | _, _ =>
        some (Except.error ⟨IoKind.other, ("canonicalize failed on ") ++ e.display⟩, fs, [])
    else
      match copy_file_from_folder fuel e full_backup_folder_path fs with
      | some (Except.ok (), fs', d) =>
        match walkEntries fuel rest folder full_backup_folder_path fs' with
        | some (r, fs'', d') => some (r, fs'', d ++ d')
        | none => none
      | some (Except.error er, fs', d) => some (Except.error er, fs', d)
      | none => none
end

/-- Loop of the driver backup_files_from_folder over the entries of
fs::read_dir. -/
def readDirLoop (fuel : Nat) (entries : List RPath) (full_backup_folder_path : RPath)
    (fs : FS) : Option MResult :=
  match entries with
  | [] => some (Except.ok (), fs, [])
  | e :: rest =>
    match copy_file_from_folder fuel e full_backup_folder_path fs with
    | some (Except.ok (), fs', d) =>
      match readDirLoop fuel rest full_backup_folder_path fs' with
      | some (r, fs'', d') => some (r, fs'', d ++ d')
      | none => none
    | some (Except.error er, fs', d) => some (Except.error er, fs', d)
    | none => none

/-- backup_files_from_folder (driver): reject a relative source with an
ErrorKind::Other error, reject any source that is not a directory with an
ErrorKind::Other error (the driver version has no single-file case), then
create the re-parented destination and mirror every child listed by
fs::read_dir. -/
def backup_files_from_folder (fuel : Nat) (source_path : RPath) (fs : FS) :
    Option MResult :=
  if source_path.absolute = false then
    some (Except.error ⟨IoKind.other,
      ("source path ") ++ source_path.display ++ (" is not absolute")⟩, fs, [])
  else if fs.isDir source_path = false then
    some (Except.error ⟨IoKind.other,
      ("source path ") ++ source_path.display ++ (" is not a directory")⟩, fs, [])
  else
    let relative_source_path := (stripRootDir source_path).getD source_path
    let full_backup_folder_path := BACKUP_FOLDER_PATH.join relative_source_path
    match fs.createDirAll full_backup_folder_path with
    | none =>
      some (Except.error ⟨IoKind.other,
        ("could not create ") ++ full_backup_folder_path.display⟩, fs, [])
    | some fs₁ =>
      match fs₁.stat source_path with
      | some (Node.dir entries _) =>
        readDirLoop fuel (entries.map (fun e => source_path.push e.1))
          full_backup_folder_path fs₁
      | _ =>
        some (Except.error ⟨IoKind.other,
          ("read_dir failed on ") ++ source_path.display⟩, fs₁, [])

/-- zip_files_in_folder (driver): create the timestamped tar file,
serialize the staging folder into it, finish it, then try to delete the
staging folder; a deletion failure is only printed and the call still
returns the archive path. -/
def zip_files_in_folder (folder_path : RPath) (timestamp : String) (fs : FS) :
    Except IoError RPath × FS × List Diag :=
  let filename := tarName folder_path timestamp
  match fs.writeFile filename [] with
  | none =>
    (Except.error ⟨IoKind.other, ("failed to create ") ++ filename.display⟩, fs,
      [Diag.zipCreateFailed filename])
  | some fs₁ =>
    match fs₁.stat folder_path with
    | some (tree@(Node.dir _ _)) =>
      match fs₁.writeFile filename tree.encode with
      | none =>
        (Except.error ⟨IoKind.other, ("failed to append ") ++ folder_path.display⟩, fs₁,
          [Diag.zipAppendFailed folder_path])
      | some fs₂ =>
        match fs₂.removeDirAll folder_path with
        | some fs₃ => (Except.ok filename, fs₃, [])
        | none => (Except.ok filename, fs₂, [Diag.removeFolderFailed folder_path])
    | _ =>
      (Except.error ⟨IoKind.other, ("failed to append ") ++ folder_path.display⟩, fs₁,
        [Diag.zipAppendFailed folder_path])

/-- encrypt_file (driver): as the library version, except that the
plaintext input file is never removed. -/
def encrypt_file (input_file : RPath) (public_key : String) (fs : FS) :
    Except IoError Unit × FS :=
  let output_filename := input_file.withExtension ("tar.age")
  if isValidAgeKey public_key = false then
    (Except.error ⟨IoKind.invalidInput, ("invalid age recipient ") ++ public_key⟩, fs)
  else
    match fs.readFileData input_file with
    | none => (Except.error ⟨IoKind.other, ("failed to open ") ++ input_file.display⟩, fs)
    | some d =>
      match fs.writeFile output_filename [] with
      | none =>
        (Except.error ⟨IoKind.other, ("failed to create ") ++ output_filename.display⟩, fs)
      | some fs₁ =>
        match fs₁.writeFile output_filename (ageEncrypt public_key d) with
        | none =>
          (Except.error ⟨IoKind.other, ("failed to write ") ++ output_filename.display⟩, fs₁)
        | some fs₂ => (Except.ok (), fs₂)

end Main

/-! ## Specification helpers -/

/-- A chain of fresh single-entry writable directories ending in a given
node: the shape fs::create_dir_all leaves behind on a fresh path. -/
def mkChain : List String → Node → Node
  | [], n => n
  | c :: rest, n => Node.dir [(c, mkChain rest n)] true

/-- Whether a component path exists in the tree and traverses no symbolic
link: on such paths canonical resolution is the identity. -/
def plainAt (n : Node) : List String → Bool
  | [] => true
  | c :: rest =>
    match n with
    | Node.dir es _ =>
      (match lookupEntry es c with
       | some (Node.link _) => false
       | some x => plainAt x rest
       | none => false)
    | _ => false

/-- The directory entries that copy_file_from_folder copies successfully
when its input entry list consists of regular files: exactly the readable
ones, kept with their contents. -/
def copyKeep (p : String × Node) : Option (String × Node) :=
  match p.2 with
  | Node.file d true => some (p.1, Node.file d true)
  | _ => none

/-- The diagnostics copy_file_from_folder emits on a list of regular-file
entries: one failed-copy notice per unreadable file. -/
def copyDiag (folder dest : RPath) (p : String × Node) : Option Diag :=
  match p.2 with
  | Node.file _ false => some (Diag.copyFailed (folder.push p.1) (dest.push p.1))
  | _ => none

/-! # Lemmas -/

/-! ## File name and extension lemmas -/

theorem mk_data_eq (s : String) : String.mk s.data = s := rfl

theorem splitLastDot_append {ys b a : List Char} (h : splitLastDot ys = some (b, a)) :
    ∀ xs, splitLastDot (xs ++ ys) = some (xs ++ b, a) := by
  intro xs
  induction xs with
  | nil => simpa using h
  | cons c cs ih => simp [splitLastDot, ih]

theorem splitLastDot_eq : ∀ {cs b a : List Char}, splitLastDot cs = some (b, a) →
    cs = b ++ '.' :: a := by
  intro cs
  induction cs with
  | nil => intro b a h; simp [splitLastDot] at h
  | cons c cs ih =>
    intro b a h
    cases hcs : splitLastDot cs with
    | some pa =>
      obtain ⟨b', a'⟩ := pa
      rw [splitLastDot, hcs] at h
      simp only [Option.some.injEq, Prod.mk.injEq] at h
      obtain ⟨hb, ha⟩ := h
      subst hb; subst ha
      simp [ih hcs]
    | none =>
      rw [splitLastDot, hcs] at h
      by_cases hc : c = '.'
      · rw [if_pos hc] at h
        simp only [Option.some.injEq, Prod.mk.injEq] at h
        obtain ⟨hb, ha⟩ := h
        subst hb; subst ha
        simp [hc]
      · simp [hc] at h

theorem stemChars_append_tar_age (st : List Char) :
    stemChars (st ++ ('.' :: 't' :: 'a' :: 'r' :: '.' :: 'a' :: 'g' :: 'e' :: [])) =
      st ++ ('.' :: 't' :: 'a' :: 'r' :: []) := by
  have h8 : splitLastDot ('.' :: 't' :: 'a' :: 'r' :: '.' :: 'a' :: 'g' :: 'e' :: []) =
      some (('.' :: 't' :: 'a' :: 'r' :: []), ('a' :: 'g' :: 'e' :: [])) := by decide
  have hap := splitLastDot_append h8 st
  rw [stemChars, hap]
  simp

theorem withExtName_tar_age_ne (s : String) : withExtName s ("tar.age") ≠ s := by
  intro h
  have hd : stemChars s.data ++ ('.' :: 't' :: 'a' :: 'r' :: '.' :: 'a' :: 'g' :: 'e' :: []) =
      s.data := congrArg String.data h
  have hs : s.data =
      stemChars s.data ++ ('.' :: 't' :: 'a' :: 'r' :: '.' :: 'a' :: 'g' :: 'e' :: []) :=
    hd.symm
  have h2 := stemChars_append_tar_age (stemChars s.data)
  have h3 : stemChars s.data = stemChars s.data ++ ('.' :: 't' :: 'a' :: 'r' :: []) := by
    conv_lhs => rw [hs]
    rw [h2]
  have h4 := congrArg List.length h3
  simp at h4

/-! ## str::lines lemmas -/

theorem splitNl_ne_nil : ∀ cs, splitNl cs ≠ [] := by
  intro cs
  induction cs with
  | nil => simp [splitNl]
  | cons c cs ih =>
    rw [splitNl]
    by_cases hc : c = '\n'
    · simp [hc]
    · simp only [if_neg hc]
      cases hcs : splitNl cs with
      | nil => simp
      | cons s rest => simp

theorem splitNl_no_nl : ∀ {cs : List Char}, '\n' ∉ cs → splitNl cs = [cs] := by
  intro cs
  induction cs with
  | nil => intro _; rfl
  | cons c cs ih =>
    intro h
    have hc : ¬ c = '\n' := fun hh => h (by simp [hh])
    have hcs : '\n' ∉ cs := fun hm => h (List.mem_cons_of_mem _ hm)
    rw [splitNl, if_neg hc, ih hcs]

theorem splitNl_append {cs ys : List Char} (h : '\n' ∉ cs) :
    splitNl (cs ++ '\n' :: ys) = cs :: splitNl ys := by
  induction cs with
  | nil => simp [splitNl]
  | cons c cs ih =>
    have hc : ¬ c = '\n' := fun hh => h (by simp [hh])
    have hcs : '\n' ∉ cs := fun hm => h (List.mem_cons_of_mem _ hm)
    rw [List.cons_append, splitNl, if_neg hc, ih hcs]

theorem dropCr_no_cr {cs : List Char} (h : '\r' ∉ cs) : dropCr cs = cs := by
  rw [dropCr]
  split
  · next heq => exact absurd (List.mem_of_mem_getLast? heq) h
  · rfl

/-- Core of the str::lines round trip: splitting newline-terminated lines
and dropping the final empty segment recovers the lines. -/
theorem rustSegs_join : ∀ (l : List (List Char)), (∀ cs ∈ l, '\n' ∉ cs) →
    (match (splitNl ((l.map (fun cs => cs ++ ['\n'])).flatten)).getLast? with
     | some [] => (splitNl ((l.map (fun cs => cs ++ ['\n'])).flatten)).dropLast
     | _ => splitNl ((l.map (fun cs => cs ++ ['\n'])).flatten)) = l := by
  intro l
  induction l with
  | nil => intro _; rfl
  | cons cs rest ih =>
    intro h
    have hcs : '\n' ∉ cs := (h cs (by simp))
    have hrest : ∀ cs ∈ rest, '\n' ∉ cs := fun x hx => h x (by simp [hx])
    have ihr := ih hrest
    have hflat : ((cs :: rest).map (fun cs => cs ++ ['\n'])).flatten =
        cs ++ '\n' :: ((rest.map (fun cs => cs ++ ['\n'])).flatten) := by
      simp
    rw [hflat, splitNl_append hcs]
    set R := (rest.map (fun cs => cs ++ ['\n'])).flatten with hR
    have hne := splitNl_ne_nil R
    obtain ⟨x, xs, hxx⟩ : ∃ x xs, splitNl R = x :: xs := by
      cases hsp : splitNl R with
      | nil => exact absurd hsp hne
      | cons x xs => exact ⟨x, xs, rfl⟩
    rw [hxx] at ihr ⊢
    rw [List.getLast?_cons_cons]
    cases hlast : (x :: xs).getLast? with
    | none => simp at hlast
    | some seg =>
      rw [hlast] at ihr
      cases seg with
      | nil =>
        simp only [] at ihr ⊢
        rw [List.dropLast_cons_of_ne_nil (by simp)]
        rw [ihr]
      | cons c cs' =>
        simp only [] at ihr ⊢
        rw [ihr]

theorem withExtName_tar (last : String) (h : extChars last.data = some ('t' :: 'a' :: 'r' :: [])) :
    withExtName last ("tar.age") = last ++ (".age") := by
  cases hsp : splitLastDot last.data with
  | none =>
    have h' : (none : Option (List Char)) = some ('t' :: 'a' :: 'r' :: []) := by
      rw [extChars, hsp] at h; exact h
    exact absurd h' (by simp)
  | some pa =>
    obtain ⟨b, a⟩ := pa
    have h' : (if b = [] then none else some a) = some ('t' :: 'a' :: 'r' :: []) := by
      rw [extChars, hsp] at h; exact h
    by_cases hb : b = []
    · rw [if_pos hb] at h'; exact absurd h' (by simp)
    · rw [if_neg hb] at h'
      simp only [Option.some.injEq] at h'
      subst h'
      have hcs : last.data = b ++ '.' :: ('t' :: 'a' :: 'r' :: []) := splitLastDot_eq hsp
      have hstem : stemChars last.data = b := by
        rw [stemChars, hsp]
        exact if_neg hb
      have hdata : b ++ '.' :: ("tar.age").data = (last ++ (".age")).data := by
        rw [String.data_append, hcs]
        simp
      calc withExtName last ("tar.age")
          = String.mk (b ++ '.' :: ("tar.age").data) := by rw [withExtName, hstem]
        _ = String.mk ((last ++ (".age")).data) := by rw [hdata]
        _ = last ++ (".age") := mk_data_eq _

theorem string_append_data_ne_nil (x y : String) :
    (x ++ String.mk ('-' :: y.data)).data ≠ [] := by
  rw [String.data_append]
  simp [String.mk]

theorem ext_of_append_dot_tar (X : String) (hX : X.data ≠ []) :
    extChars ((X ++ (".tar")).data) = some ('t' :: 'a' :: 'r' :: []) := by
  have h4 : splitLastDot ('.' :: 't' :: 'a' :: 'r' :: []) =
      some (([] : List Char), ('t' :: 'a' :: 'r' :: [])) := by decide
  have hap := splitLastDot_append h4 X.data
  rw [String.data_append]
  have hdt : (".tar").data = ('.' :: 't' :: 'a' :: 'r' :: []) := rfl
  rw [hdt]
  show (match splitLastDot (X.data ++ ('.' :: 't' :: 'a' :: 'r' :: [])) with
        | some (b, a) => if b = [] then none else some a
        | none => none) = some ('t' :: 'a' :: 'r' :: [])
  rw [hap]
  show (if X.data ++ ([] : List Char) = [] then none else some ('t' :: 'a' :: 'r' :: []))
      = some ('t' :: 'a' :: 'r' :: [])
  rw [if_neg (by simpa using hX)]

theorem tarName_ext_tar (folder : RPath) (ts last : String)
    (h : (tarName folder ts).comps.getLast? = some last) :
    extChars last.data = some ('t' :: 'a' :: 'r' :: []) := by
  cases hf : folder.comps.getLast? with
  | none =>
    rw [tarName, hf] at h
    simp only [List.getLast?_singleton, Option.some.injEq] at h
    subst h
    have : (("-") ++ ts ++ (".tar")) = ((("-") ++ ts) ++ (".tar")) := by
      rw [String.append_assoc]
    rw [this]
    refine ext_of_append_dot_tar _ ?_
    rw [String.data_append]
    simp [show ("-").data = ['-'] from rfl]
  | some last₀ =>
    rw [tarName, hf] at h
    rw [List.getLast?_concat] at h
    simp only [Option.some.injEq] at h
    subst h
    have : (last₀ ++ ("-") ++ ts ++ (".tar")) = ((last₀ ++ ("-") ++ ts) ++ (".tar")) := by
      rw [String.append_assoc]
    rw [this]
    refine ext_of_append_dot_tar _ ?_
    rw [String.data_append, String.data_append]
    simp [show ("-").data = ['-'] from rfl]

/-! # Claim C9 -/

/-- Claim C9 counterexample: encrypt_file names its output with
Path::with_extension, which replaces the final extension rather than
appending one: for the input name backup.zip the output name is
backup.tar.age, which does not have the input name as an initial
segment, so the input name with its own extension is not preserved. -/
theorem counterexample_C9 :
    RPath.withExtension ⟨true, [("backup.zip")]⟩ ("tar.age") = ⟨true, [("backup.tar.age")]⟩
    ∧ ∀ t : String, ("backup.zip") ++ t ≠ ("backup.tar.age") := by
  constructor
  · rfl
  · intro t h
    have hd := congrArg String.data h
    rw [String.data_append] at hd
    have h10 := congrArg (List.take 10) hd
    rw [show (10 : Nat) = ("backup.zip").data.length from rfl, List.take_left] at h10
    exact absurd h10 (by decide)

/-- Claim C9 (amended): the encrypted output name is the input name with
with_extension tar.age applied, which replaces the final extension; for
input names whose extension is tar — as every archiver-produced name is,
second conjunct — this appends .age, so the archive name with its own
extension is preserved as an initial segment of the output name. -/
theorem claim_C9 :
    (∀ (p : RPath) (last : String), p.comps.getLast? = some last →
      extChars last.data = some ('t' :: 'a' :: 'r' :: []) →
      p.withExtension ("tar.age") = ⟨p.absolute, p.comps.dropLast ++ [last ++ (".age")]⟩)
    ∧ (∀ (folder : RPath) (ts last : String),
      (tarName folder ts).comps.getLast? = some last →
      extChars last.data = some ('t' :: 'a' :: 'r' :: [])) := by
  constructor
  · intro p last hl he
    simp only [RPath.withExtension, hl]
    rw [withExtName_tar last he]
  · exact fun folder ts last h => tarName_ext_tar folder ts last h

/-- Claim C9 witness: a tar-named input keeps its full name in the output
name. -/
theorem claim_C9_witness :
    RPath.withExtension ⟨true, [("x.tar")]⟩ ("tar.age") = ⟨true, [("x.tar.age")]⟩ := by
  have h := claim_C9.1 ⟨true, [("x.tar")]⟩ ("x.tar") rfl (by decide)
  exact h.trans (by decide)

/-! # Claim C10 -/

/-- Claim C10: the configuration loaders return the raw file contents:
the paths loader returns exactly the lines of the file in order, keeping
empty lines, applying no trimming and no validation (any strings at all
round-trip, first conjunct for newline-terminated files, second for a
file whose single line has no terminator), and the key loader returns the
file contents completely unmodified, trailing newline included. -/
theorem claim_C10 :
    (∀ lines : List String, (∀ s ∈ lines, '\n' ∉ s.data ∧ '\r' ∉ s.data) →
      load_paths_from_file (String.mk ((lines.map (fun s => s.data ++ ['\n'])).flatten)) = lines)
    ∧ (∀ cs : List Char, cs ≠ [] → '\n' ∉ cs → '\r' ∉ cs →
      load_paths_from_file (String.mk cs) = [String.mk cs])
    ∧ (∀ contents : String, load_public_key_from_file contents = contents) := by
  refine ⟨?_, ?_, fun _ => rfl⟩
  · intro lines h
    have hl : ∀ cs ∈ lines.map String.data, '\n' ∉ cs := by
      intro cs hcs
      obtain ⟨s, hs, rfl⟩ := List.mem_map.mp hcs
      exact (h s hs).1
    have key := rustSegs_join (lines.map String.data) hl
    simp only [load_paths_from_file, rustLines]
    rw [show (lines.map (fun s => s.data ++ ['\n'])) =
        (lines.map String.data).map (fun cs => cs ++ ['\n']) from by
      rw [List.map_map]; rfl]
    rw [key, List.map_map]
    have hpt : ∀ s ∈ lines, ((fun cs => String.mk (dropCr cs)) ∘ String.data) s = id s := by
      intro s hs
      show String.mk (dropCr s.data) = s
      rw [dropCr_no_cr (h s hs).2, mk_data_eq]
    rw [List.map_congr_left hpt, List.map_id]
  · intro cs hne hnl hcr
    simp only [load_paths_from_file, rustLines]
    rw [splitNl_no_nl hnl]
    cases cs with
    | nil => exact absurd rfl hne
    | cons c cs' => simp [dropCr_no_cr hcr]

/-- Claim C10 witness: a three-line file with an interior empty line loads
verbatim, and a key file with a trailing newline loads unmodified. -/
theorem claim_C10_witness :
    load_paths_from_file ("/a\n\n/b\n") = [("/a"), (""), ("/b")]
    ∧ load_public_key_from_file ("key\n") = ("key\n") := by
  constructor
  · have h := claim_C10.1 [("/a"), (""), ("/b")] (by decide)
    have he : ("/a\n\n/b\n") =
        String.mk ((([("/a"), (""), ("/b")]).map (fun s => s.data ++ ['\n'])).flatten) := by
      decide
    rw [he]
    exact h
  · exact claim_C10.2.2 ("key\n")

/-! # Claim C1 -/

/-- Claim C1: for every absolute source path, both path-mapping functions
— build_full_backup_path, used for the top-level source, and the path
computed by create_folder_in_backup_structure, recomputed inside the
recursion from each directory its own absolute path — strip exactly the
leading root separator and re-parent the remaining components under the
staging root, at every depth. -/
theorem claim_C1 (p r : RPath) (fs : FS) (h : p.absolute = true) :
    build_full_backup_path p r = ⟨r.absolute, r.comps ++ p.comps⟩
    ∧ create_folder_in_backup_structure p r fs =
      (match fs.createDirAll ⟨r.absolute, r.comps ++ p.comps⟩ with
       | some fs' => Except.ok ((⟨r.absolute, r.comps ++ p.comps⟩ : RPath), fs')
       | none => Except.error (BErr.createDirFailed ⟨r.absolute, r.comps ++ p.comps⟩)) := by
  have hb : build_full_backup_path p r = ⟨r.absolute, r.comps ++ p.comps⟩ := by
    rw [build_full_backup_path, stripRootDir, if_pos h]
    simp [RPath.join]
  refine ⟨hb, ?_⟩
  rw [create_folder_in_backup_structure]
  rw [show r.join ((stripRootDir p).getD p) = build_full_backup_path p r from rfl, hb]

/-- Claim C1 witness: a depth-three absolute path maps under a relative
staging root. -/
theorem claim_C1_witness :
    build_full_backup_path ⟨true, [("a"), ("b"), ("c")]⟩ ⟨false, [("laptop-backup")]⟩ =
      ⟨false, [("laptop-backup"), ("a"), ("b"), ("c")]⟩ :=
  (claim_C1 ⟨true, [("a"), ("b"), ("c")]⟩ ⟨false, [("laptop-backup")]⟩
    ⟨Node.dir [] true, []⟩ rfl).1

/-! # Claim C7 -/

/-- Claim C7: a walked entry that is neither a directory nor a regular
file (following links) is skipped by copy_file_from_folder with one
diagnostic notice, the filesystem is untouched, and the call returns
success, so the skip never makes the overall mirror call fail. -/
theorem claim_C7 (fuel : Nat) (file destination_folder backup_folder_path : RPath) (fs : FS)
    (hd : fs.isDir file = false) (hf : fs.isFile file = false) :
    copy_file_from_folder (fuel + 1) file destination_folder backup_folder_path fs
      = some (Except.ok (), fs, [Diag.skipNonRegular file]) := by
  simp only [copy_file_from_folder]
  simp [hd, hf]

/-- Claim C7 witness: a special node (a device) is skipped with a notice
and the call succeeds. -/
theorem claim_C7_witness :
    copy_file_from_folder 3 ⟨true, [("dev"), ("null")]⟩ ⟨true, [("bk")]⟩ ⟨true, [("bk")]⟩
        ⟨Node.dir [("dev", Node.dir [("null", Node.special)] true)] true, []⟩
      = some (Except.ok (),
          (⟨Node.dir [("dev", Node.dir [("null", Node.special)] true)] true, []⟩ : FS),
          [Diag.skipNonRegular ⟨true, [("dev"), ("null")]⟩]) :=
  claim_C7 2 _ _ _ _ rfl rfl

/-! # Claim C8 -/

/-- Claim C8 counterexample: mirroring a relative path through the driver
fails with an error of kind ErrorKind::Other, not ErrorKind::InvalidInput
as the claim states (the library version bails with a plain message error
carrying no kind at all). -/
theorem counterexample_C8 :
    Main.backup_files_from_folder 1 ⟨false, [("x")]⟩ ⟨Node.dir [] true, []⟩
      = some (Except.error ⟨IoKind.other,
            ("source path ") ++ (RPath.display ⟨false, [("x")]⟩) ++ (" is not absolute")⟩,
          (⟨Node.dir [] true, []⟩ : FS), [])
    ∧ IoKind.other ≠ IoKind.invalidInput := by
  exact ⟨rfl, by decide⟩

/-- Claim C8 (amended): a relative source makes the mirror fail before any
filesystem mutation, with a message-tagged error (kind ErrorKind::Other in
the driver, a kindless anyhow message in the library, in neither case
InvalidInput), and an absolute source that exists neither as a file nor as
a directory makes the library mirror fail before any filesystem mutation
with its does-not-exist message error rather than a NotFound kind. -/
theorem claim_C8 (fuel : Nat) (p r : RPath) (fs : FS) :
    (p.absolute = false →
      backup_directory_contents fuel p r fs
          = some (Except.error (BErr.notAbsolute p), fs, [])
        ∧ Main.backup_files_from_folder fuel p fs
          = some (Except.error ⟨IoKind.other,
              ("source path ") ++ p.display ++ (" is not absolute")⟩, fs, []))
    ∧ (p.absolute = true → fs.isDir p = false → fs.isFile p = false →
      backup_directory_contents fuel p r fs
        = some (Except.error (BErr.fileNotExists p), fs, [])) := by
  constructor
  · intro h
    constructor
    · rw [backup_directory_contents]; simp [h]
    · rw [Main.backup_files_from_folder]; simp [h]
  · intro ha hd hf
    rw [backup_directory_contents]
    simp only [ha, Bool.true_eq_false, if_false, hd, if_true]
    rw [backup_file]
    simp [hf]

/-- Claim C8 witness: a relative path and an absolute missing path both
fail with the filesystem untouched. -/
theorem claim_C8_witness :
    backup_directory_contents 1 ⟨false, [("x")]⟩ ⟨true, [("bk")]⟩ ⟨Node.dir [] true, []⟩
        = some (Except.error (BErr.notAbsolute ⟨false, [("x")]⟩),
            (⟨Node.dir [] true, []⟩ : FS), [])
    ∧ backup_directory_contents 1 ⟨true, [("nope")]⟩ ⟨true, [("bk")]⟩ ⟨Node.dir [] true, []⟩
        = some (Except.error (BErr.fileNotExists ⟨true, [("nope")]⟩),
            (⟨Node.dir [] true, []⟩ : FS), []) :=
  ⟨((claim_C8 1 ⟨false, [("x")]⟩ ⟨true, [("bk")]⟩ ⟨Node.dir [] true, []⟩).1 rfl).1,
   (claim_C8 1 ⟨true, [("nope")]⟩ ⟨true, [("bk")]⟩ ⟨Node.dir [] true, []⟩).2 rfl rfl rfl⟩

/-! # Claim C3 -/

/-- Claim C3 counterexample: in the library archiver, a failure to delete
the staging folder after a fully successful serialization is not
best-effort: the call returns an error even though the archive file has
been completely written (it is present in the returned filesystem). -/
theorem counterexample_C3 :
    zip_files_in_folder ⟨true, [("lb")]⟩ ("T") ⟨Node.dir [("lb", Node.dir [] false)] true, []⟩
      = (Except.error (BErr.removeDirFailed ⟨true, [("lb")]⟩),
         ⟨Node.dir [("lb", Node.dir [] false),
                    ("lb-T.tar", Node.file [1, 0, 0] true)] true, []⟩) := by
  rfl

/-- Claim C3 (amended): in the driver archiver, once the staging folder
has been serialized into the archive file, a failure to delete the staging
folder is only reported as a diagnostic and the call still returns success
with the archive path; the library archiver instead propagates the
deletion failure as an error. -/
theorem claim_C3 (folder : RPath) (ts : String) (fs fs₁ fs₂ : FS)
    (es : List (String × Node)) (w : Bool)
    (h1 : fs.writeFile (tarName folder ts) [] = some fs₁)
    (h2 : fs₁.stat folder = some (Node.dir es w))
    (h3 : fs₁.writeFile (tarName folder ts) ((Node.dir es w).encode) = some fs₂)
    (h4 : fs₂.removeDirAll folder = none) :
    Main.zip_files_in_folder folder ts fs
      = (Except.ok (tarName folder ts), fs₂, [Diag.removeFolderFailed folder]) := by
  simp only [Main.zip_files_in_folder, h1, h2, h3, h4]

/-- Claim C3 witness: a staging folder whose directory is not writable
survives archiving; the driver reports the failed deletion and returns the
archive path. -/
theorem claim_C3_witness :
    Main.zip_files_in_folder ⟨true, [("lb")]⟩ ("T")
        ⟨Node.dir [("lb", Node.dir [] false)] true, []⟩
      = (Except.ok ⟨true, [("lb-T.tar")]⟩,
         (⟨Node.dir [("lb", Node.dir [] false),
                     ("lb-T.tar", Node.file [1, 0, 0] true)] true, []⟩ : FS),
         [Diag.removeFolderFailed ⟨true, [("lb")]⟩]) :=
  claim_C3 ⟨true, [("lb")]⟩ ("T")
    ⟨Node.dir [("lb", Node.dir [] false)] true, []⟩
    ⟨Node.dir [("lb", Node.dir [] false), ("lb-T.tar", Node.file [] true)] true, []⟩
    ⟨Node.dir [("lb", Node.dir [] false), ("lb-T.tar", Node.file [1, 0, 0] true)] true, []⟩
    [] false rfl rfl rfl rfl

/-! # Claim C2 counterexample -/

/-- Claim C2 counterexample: the driver encrypt_file returns success while
the plaintext input file still exists: it never removes the input, so
success does not imply the plaintext file has been removed. -/
theorem counterexample_C2 :
    (Main.encrypt_file ⟨true, [("a.tar")]⟩ ("age1k")
        ⟨Node.dir [("a.tar", Node.file [7] true)] true, []⟩).1 = Except.ok ()
    ∧ (Main.encrypt_file ⟨true, [("a.tar")]⟩ ("age1k")
        ⟨Node.dir [("a.tar", Node.file [7] true)] true, []⟩).2.isFile ⟨true, [("a.tar")]⟩
      = true := ⟨by rfl, by rfl⟩

/-! ## Entry list lemmas -/

theorem lookupEntry_setEntry_self (es : List (String × Node)) (c : String) (x : Node) :
    lookupEntry (setEntry es c x) c = some x := by
  induction es with
  | nil => simp [setEntry, lookupEntry]
  | cons e rest ih =>
    obtain ⟨n, y⟩ := e
    by_cases h : n = c
    · simp [setEntry, h, lookupEntry]
    · simp [setEntry, h, lookupEntry, ih]

theorem lookupEntry_setEntry_ne {d c : String} (es : List (String × Node)) (x : Node)
    (h : d ≠ c) : lookupEntry (setEntry es c x) d = lookupEntry es d := by
  have hcd : c ≠ d := fun hh => h hh.symm
  induction es with
  | nil => simp [setEntry, lookupEntry, hcd]
  | cons e rest ih =>
    obtain ⟨n, y⟩ := e
    by_cases hn : n = c
    · subst hn
      simp [setEntry, lookupEntry, hcd]
    · simp [setEntry, hn, lookupEntry, ih]

theorem setEntry_setEntry (es : List (String × Node)) (c : String) (x y : Node) :
    setEntry (setEntry es c x) c y = setEntry es c y := by
  induction es with
  | nil => simp [setEntry]
  | cons e rest ih =>
    obtain ⟨n, z⟩ := e
    by_cases hn : n = c
    · simp [setEntry, hn]
    · simp [setEntry, hn, ih]

theorem setEntry_self_of_lookup {es : List (String × Node)} {c : String} {x : Node}
    (h : lookupEntry es c = some x) : setEntry es c x = es := by
  induction es with
  | nil => simp [lookupEntry] at h
  | cons e rest ih =>
    obtain ⟨n, z⟩ := e
    by_cases hn : n = c
    · subst hn
      rw [lookupEntry, if_pos rfl] at h
      simp only [Option.some.injEq] at h
      subst h
      simp [setEntry]
    · rw [lookupEntry, if_neg hn] at h
      simp [setEntry, hn, ih h]

theorem lookupEntry_none_of_not_mem {es : List (String × Node)} {c : String}
    (h : c ∉ es.map Prod.fst) : lookupEntry es c = none := by
  induction es with
  | nil => rfl
  | cons e rest ih =>
    obtain ⟨n, y⟩ := e
    have hn : n ≠ c := fun hh => h (by simp [hh])
    have hr : c ∉ rest.map Prod.fst := fun hm => h (by simp [hm])
    simp [lookupEntry, hn, ih hr]

theorem mem_of_lookupEntry_some {es : List (String × Node)} {c : String} {x : Node}
    (h : lookupEntry es c = some x) : c ∈ es.map Prod.fst := by
  induction es with
  | nil => simp [lookupEntry] at h
  | cons e rest ih =>
    obtain ⟨n, y⟩ := e
    by_cases hn : n = c
    · simp [hn]
    · rw [lookupEntry, if_neg hn] at h
      simp [ih h]

theorem setEntry_of_not_mem {es : List (String × Node)} {c : String}
    (h : lookupEntry es c = none) (x : Node) : setEntry es c x = es ++ [(c, x)] := by
  induction es with
  | nil => simp [setEntry]
  | cons e rest ih =>
    obtain ⟨n, y⟩ := e
    by_cases hn : n = c
    · rw [lookupEntry, if_pos hn] at h
      simp at h
    · rw [lookupEntry, if_neg hn] at h
      simp [setEntry, hn, ih h]

theorem lookupEntry_removeEntry_self {es : List (String × Node)} {c : String}
    (h : (es.map Prod.fst).Nodup) : lookupEntry (removeEntry es c) c = none := by
  induction es with
  | nil => rfl
  | cons e rest ih =>
    obtain ⟨n, y⟩ := e
    simp only [List.map_cons, List.nodup_cons] at h
    by_cases hn : n = c
    · subst hn
      rw [removeEntry, if_pos rfl]
      exact lookupEntry_none_of_not_mem h.1
    · rw [removeEntry, if_neg hn, lookupEntry, if_neg hn]
      exact ih h.2

theorem lookupEntry_removeEntry_ne {d c : String} (es : List (String × Node))
    (h : d ≠ c) : lookupEntry (removeEntry es c) d = lookupEntry es d := by
  induction es with
  | nil => rfl
  | cons e rest ih =>
    obtain ⟨n, y⟩ := e
    by_cases hn : n = c
    · subst hn
      rw [removeEntry, if_pos rfl, lookupEntry, if_neg (fun hh => h hh.symm)]
    · rw [removeEntry, if_neg hn, lookupEntry, lookupEntry]
      by_cases hd : n = d
      · simp [hd]
      · simp [hd, ih]

/-! ## Plain lookup and subtree replacement lemmas -/

theorem lookupPlain_append (n : Node) (xs ys : List String) :
    lookupPlain n (xs ++ ys) = (lookupPlain n xs).bind (fun m => lookupPlain m ys) := by
  induction xs generalizing n with
  | nil => simp [lookupPlain]
  | cons c xs ih =>
    cases n with
    | dir es w =>
      rw [List.cons_append]
      cases h : lookupEntry es c with
      | some x => simp [lookupPlain, h, ih]
      | none => simp [lookupPlain, h]
    | file d r => simp [lookupPlain]
    | link t => simp [lookupPlain]
    | special => simp [lookupPlain]

theorem replaceAt_isSome {n : Node} {pc : List String} {y : Node}
    (h : lookupPlain n pc = some y) (x : Node) : ∃ n', replaceAt n pc x = some n' := by
  induction pc generalizing n with
  | nil => exact ⟨x, rfl⟩
  | cons c pc ih =>
    cases n with
    | dir es w =>
      cases hz : lookupEntry es c with
      | some z =>
        simp only [lookupPlain, hz] at h
        obtain ⟨z', hz'⟩ := ih h
        exact ⟨Node.dir (setEntry es c z') w, by simp only [replaceAt, hz, hz']⟩
      | none => simp only [lookupPlain, hz] at h; exact absurd h (by simp)
    | file d r => simp [lookupPlain] at h
    | link t => simp [lookupPlain] at h
    | special => simp [lookupPlain] at h

theorem lookupPlain_replaceAt_self : ∀ {n n' : Node} {pc : List String} {x : Node},
    replaceAt n pc x = some n' → lookupPlain n' pc = some x := by
  intro n n' pc
  induction pc generalizing n n' with
  | nil =>
    intro x h
    simp only [replaceAt, Option.some.injEq] at h
    subst h
    rfl
  | cons c pc ih =>
    intro x h
    cases n with
    | dir es w =>
      cases hz : lookupEntry es c with
      | some z =>
        cases hz' : replaceAt z pc x with
        | some y' =>
          simp only [replaceAt, hz, hz', Option.some.injEq] at h
          subst h
          simp only [lookupPlain, lookupEntry_setEntry_self]
          exact ih hz'
        | none => simp only [replaceAt, hz, hz'] at h; exact absurd h (by simp)
      | none => simp only [replaceAt, hz] at h; exact absurd h (by simp)
    | file d r => simp [replaceAt] at h
    | link t => simp [replaceAt] at h
    | special => simp [replaceAt] at h

theorem lookupPlain_replaceAt_append {n n' : Node} {pc : List String} {x : Node}
    (h : replaceAt n pc x = some n') (ys : List String) :
    lookupPlain n' (pc ++ ys) = lookupPlain x ys := by
  rw [lookupPlain_append, lookupPlain_replaceAt_self h]
  rfl

theorem replaceAt_of_lookup_self : ∀ {n : Node} {pc : List String} {y : Node},
    lookupPlain n pc = some y → replaceAt n pc y = some n := by
  intro n pc
  induction pc generalizing n with
  | nil =>
    intro y h
    simp only [lookupPlain, Option.some.injEq] at h
    subst h
    rfl
  | cons c pc ih =>
    intro y h
    cases n with
    | dir es w =>
      cases hz : lookupEntry es c with
      | some z =>
        simp only [lookupPlain, hz] at h
        simp only [replaceAt, hz, ih h, setEntry_self_of_lookup hz]
      | none => simp only [lookupPlain, hz] at h; exact absurd h (by simp)
    | file d r => simp [lookupPlain] at h
    | link t => simp [lookupPlain] at h
    | special => simp [lookupPlain] at h

theorem replaceAt_bind : ∀ {n n₂ : Node} {base : List String} {X : Node},
    replaceAt n base X = some n₂ → ∀ (cs : List String) (Y : Node),
    replaceAt n₂ (base ++ cs) Y = (replaceAt X cs Y).bind (fun X' => replaceAt n base X') := by
  intro n n₂ base
  induction base generalizing n n₂ with
  | nil =>
    intro X h cs Y
    simp only [replaceAt, Option.some.injEq] at h
    subst h
    simp only [List.nil_append, replaceAt]
    cases replaceAt X cs Y <;> rfl
  | cons a base ih =>
    intro X h cs Y
    cases n with
    | dir es w =>
      cases hy : lookupEntry es a with
      | some y =>
        cases hy₂ : replaceAt y base X with
        | some y₂ =>
          simp only [replaceAt, hy, hy₂, Option.some.injEq] at h
          subst h
          rw [List.cons_append]
          simp only [replaceAt, lookupEntry_setEntry_self, ih hy₂ cs Y]
          cases hXY : replaceAt X cs Y with
          | some X' =>
            simp only [Option.some_bind]
            cases hy₃ : replaceAt y base X' with
            | some y₃ =>
              simp only [replaceAt, hy, hy₃, setEntry_setEntry]
            | none => simp only [replaceAt, hy, hy₃]
          | none => rfl
        | none => simp only [replaceAt, hy, hy₂] at h; exact absurd h (by simp)
      | none => simp only [replaceAt, hy] at h; exact absurd h (by simp)
    | file d r => simp [replaceAt] at h
    | link t => simp [replaceAt] at h
    | special => simp [replaceAt] at h

/-- Frame lemma: replacing the directory at pc with one that differs only
in its entry named c leaves every plain lookup alone except at and below
the modified entry and along the rebuilt spine itself. -/
theorem replaceAt_frame : ∀ {n n' : Node} {pc : List String} {es es' : List (String × Node)}
    {w w' : Bool} {c : String},
    lookupPlain n pc = some (Node.dir es w) →
    replaceAt n pc (Node.dir es' w') = some n' →
    (∀ d, d ≠ c → lookupEntry es' d = lookupEntry es d) →
    ∀ cs, ¬ (cs <+: pc) → ¬ (pc ++ [c] <+: cs) →
    lookupPlain n' cs = lookupPlain n cs := by
  intro n n' pc
  induction pc generalizing n n' with
  | nil =>
    intro es es' w w' c hlk hrep hpres cs h1 h2
    simp only [lookupPlain, Option.some.injEq] at hlk
    subst hlk
    simp only [replaceAt, Option.some.injEq] at hrep
    subst hrep
    cases cs with
    | nil => exact absurd ⟨[], rfl⟩ h1
    | cons d t =>
      have hd : d ≠ c := by
        intro hdc
        subst hdc
        exact h2 ⟨t, rfl⟩
      rw [lookupPlain, lookupPlain, hpres d hd]
  | cons a pc ih =>
    intro es es' w w' c hlk hrep hpres cs h1 h2
    cases n with
    | dir es₀ w₀ =>
      cases hy : lookupEntry es₀ a with
      | some y =>
        simp only [lookupPlain, hy] at hlk
        cases hy' : replaceAt y pc (Node.dir es' w') with
        | some y' =>
          simp only [replaceAt, hy, hy', Option.some.injEq] at hrep
          subst hrep
          cases cs with
          | nil => exact absurd ⟨a :: pc, rfl⟩ h1
          | cons d t =>
            by_cases hd : d = a
            · subst hd
              simp only [lookupPlain, lookupEntry_setEntry_self, hy]
              refine ih hlk hy' hpres t ?_ ?_
              · intro ⟨u, hu⟩
                exact h1 ⟨u, by rw [← hu]; rfl⟩
              · intro ⟨u, hu⟩
                refine h2 ⟨u, ?_⟩
                rw [List.cons_append, List.cons_append, hu]
            · simp only [lookupPlain, lookupEntry_setEntry_ne _ _ hd]
        | none => simp only [replaceAt, hy, hy'] at hrep; exact absurd hrep (by simp)
      | none => simp only [lookupPlain, hy] at hlk; exact absurd hlk (by simp)
    | file d r => simp [lookupPlain] at hlk
    | link t => simp [lookupPlain] at hlk
    | special => simp [lookupPlain] at hlk

/-- Frame lemma for plainAt: the same replacement leaves plainAt alone on
every path that does not pass through the modified entry, because the
rebuilt spine consists of directories. -/
theorem plainAt_replace_frame : ∀ {n n' : Node} {pc : List String} {es es' : List (String × Node)}
    {w w' : Bool} {c : String},
    lookupPlain n pc = some (Node.dir es w) →
    replaceAt n pc (Node.dir es' w') = some n' →
    (∀ d, d ≠ c → lookupEntry es' d = lookupEntry es d) →
    ∀ cs, ¬ (pc ++ [c] <+: cs) →
    plainAt n' cs = plainAt n cs := by
  intro n n' pc
  induction pc generalizing n n' with
  | nil =>
    intro es es' w w' c hlk hrep hpres cs h2
    simp only [lookupPlain, Option.some.injEq] at hlk
    subst hlk
    simp only [replaceAt, Option.some.injEq] at hrep
    subst hrep
    cases cs with
    | nil => rfl
    | cons d t =>
      have hd : d ≠ c := by
        intro hdc
        subst hdc
        exact h2 ⟨t, rfl⟩
      rw [plainAt, plainAt, hpres d hd]
  | cons a pc ih =>
    intro es es' w w' c hlk hrep hpres cs h2
    cases n with
    | dir es₀ w₀ =>
      cases hy : lookupEntry es₀ a with
      | some y =>
        simp only [lookupPlain, hy] at hlk
        cases hy' : replaceAt y pc (Node.dir es' w') with
        | some y' =>
          simp only [replaceAt, hy, hy', Option.some.injEq] at hrep
          subst hrep
          cases cs with
          | nil => rfl
          | cons d t =>
            by_cases hd : d = a
            · subst hd
              have hrec := ih hlk hy' hpres t (by
                intro ⟨u, hu⟩
                refine h2 ⟨u, ?_⟩
                rw [List.cons_append, List.cons_append, hu])
              simp only [plainAt, lookupEntry_setEntry_self, hy]
              cases hyv : y with
              | dir es₂ w₂ =>
                subst hyv
                cases hyv' : y' with
                | dir es₃ w₃ => subst hyv'; exact hrec
                | file d₃ r₃ => subst hyv'; exact hrec
                | link t₃ =>
                  exfalso
                  subst hyv'
                  cases pc with
                  | nil =>
                    simp only [replaceAt, Option.some.injEq] at hy'
                    exact Node.noConfusion hy'
                  | cons b pc' =>
                    cases hz : lookupEntry es₂ b with
                    | some z =>
                      cases hz' : replaceAt z pc' (Node.dir es' w') with
                      | some z' =>
                        simp only [replaceAt, hz, hz', Option.some.injEq] at hy'
                        exact Node.noConfusion hy'
                      | none =>
                        simp only [replaceAt, hz, hz'] at hy'
                        exact Option.noConfusion hy'
                    | none =>
                      simp only [replaceAt, hz] at hy'
                      exact Option.noConfusion hy'
                | special => subst hyv'; exact hrec
              | file d₂ r₂ =>
                subst hyv
                cases pc with
                | nil => exact Node.noConfusion (Option.some.inj hlk)
                | cons b pc' => simp [lookupPlain] at hlk
              | link t₂ =>
                subst hyv
                cases pc with
                | nil => exact Node.noConfusion (Option.some.inj hlk)
                | cons b pc' => simp [lookupPlain] at hlk
              | special =>
                subst hyv
                cases pc with
                | nil => exact Node.noConfusion (Option.some.inj hlk)
                | cons b pc' => simp [lookupPlain] at hlk
            · simp only [plainAt, lookupEntry_setEntry_ne _ _ hd]
        | none => simp only [replaceAt, hy, hy'] at hrep; exact absurd hrep (by simp)
      | none => simp only [lookupPlain, hy] at hlk; exact absurd hlk (by simp)
    | file d r => simp [lookupPlain] at hlk
    | link t => simp [lookupPlain] at hlk
    | special => simp [lookupPlain] at hlk

/-! ## Canonical resolution on plain paths -/

theorem canonStep_plain : ∀ {todo : List String} {fs : FS} {done : List String} {m : Node},
    lookupPlain fs.root done = some m → plainAt m todo = true →
    ∀ rest, canonStep fs done (todo ++ rest) = canonStep fs (done ++ todo) rest := by
  intro todo
  induction todo with
  | nil =>
    intro fs done m h1 h2 rest
    simp
  | cons c todo ih =>
    intro fs done m h1 h2 rest
    cases m with
    | dir es w =>
      cases hz : lookupEntry es c with
      | some x =>
        have hlx : lookupPlain fs.root (done ++ [c]) = some x := by
          rw [lookupPlain_append, h1]
          simp [lookupPlain, hz]
        cases x with
        | link t =>
          simp only [plainAt, hz] at h2
          exact absurd h2 (by simp)
        | dir es₂ w₂ =>
          have hpx : plainAt (Node.dir es₂ w₂) todo = true := by
            simp only [plainAt, hz] at h2
            exact h2
          rw [List.cons_append]
          simp only [canonStep, hlx]
          rw [ih hlx hpx rest, List.append_cons done c todo]
        | file d r =>
          have hpx : plainAt (Node.file d r) todo = true := by
            simp only [plainAt, hz] at h2
            exact h2
          rw [List.cons_append]
          simp only [canonStep, hlx]
          rw [ih hlx hpx rest, List.append_cons done c todo]
        | special =>
          have hpx : plainAt Node.special todo = true := by
            simp only [plainAt, hz] at h2
            exact h2
          rw [List.cons_append]
          simp only [canonStep, hlx]
          rw [ih hlx hpx rest, List.append_cons done c todo]
      | none =>
        simp only [plainAt, hz] at h2
        exact absurd h2 (by simp)
    | file d r =>
      simp only [plainAt] at h2
      exact absurd h2 (by simp)
    | link t =>
      simp only [plainAt] at h2
      exact absurd h2 (by simp)
    | special =>
      simp only [plainAt] at h2
      exact absurd h2 (by simp)

theorem canonGo_plain {fs : FS} {done todo : List String} {m : Node}
    (h1 : lookupPlain fs.root done = some m) (h2 : plainAt m todo = true) (fuel : Nat) :
    canonGo fs fuel done todo = some (done ++ todo) := by
  have hs := canonStep_plain h1 h2 []
  rw [List.append_nil] at hs
  rw [canonGo, hs]
  rfl

theorem canon_plain {fs : FS} {p : RPath} (h : plainAt fs.root (fs.absComps p) = true) :
    fs.canon p = some (fs.absComps p) := by
  have := @canonGo_plain fs [] (fs.absComps p) fs.root rfl h canonFuel
  simpa [FS.canon] using this

theorem stat_plain {fs : FS} {p : RPath} (h : plainAt fs.root (fs.absComps p) = true) :
    fs.stat p = lookupPlain fs.root (fs.absComps p) := by
  rw [FS.stat, canon_plain h]

/-! ## Chains of fresh directories -/

theorem lookupPlain_mkChain (xs : List String) (n : Node) :
    lookupPlain (mkChain xs n) xs = some n := by
  induction xs with
  | nil => rfl
  | cons c xs ih => simp [mkChain, lookupPlain, lookupEntry, ih]

theorem lookupPlain_mkChain_append (xs ys : List String) (n : Node) :
    lookupPlain (mkChain xs n) (xs ++ ys) = lookupPlain n ys := by
  rw [lookupPlain_append, lookupPlain_mkChain]
  rfl

theorem mkChain_isDir (xs : List String) (es : List (String × Node)) (w : Bool) :
    ∃ es' w', mkChain xs (Node.dir es w) = Node.dir es' w' := by
  cases xs with
  | nil => exact ⟨es, w, rfl⟩
  | cons a b => exact ⟨[(a, mkChain b (Node.dir es w))], true, rfl⟩

theorem plainAt_mkChain (xs : List String) (es : List (String × Node)) (w : Bool) :
    plainAt (mkChain xs (Node.dir es w)) xs = true := by
  induction xs with
  | nil => rfl
  | cons c xs ih =>
    obtain ⟨es', w', hh⟩ := mkChain_isDir xs es w
    show plainAt (Node.dir [(c, mkChain xs (Node.dir es w))] true) (c :: xs) = true
    have hle : lookupEntry [(c, mkChain xs (Node.dir es w))] c
        = some (mkChain xs (Node.dir es w)) := by
      simp [lookupEntry]
    simp only [plainAt, hle]
    rw [hh]
    show plainAt (Node.dir es' w') xs = true
    rw [← hh]
    exact ih

theorem replaceAt_mkChain (xs : List String) (m z : Node) :
    replaceAt (mkChain xs m) xs z = some (mkChain xs z) := by
  induction xs with
  | nil => rfl
  | cons c xs ih => simp [mkChain, replaceAt, lookupEntry, ih, setEntry]

theorem mkChain_append (xs : List String) (c : String) (n : Node) :
    mkChain (xs ++ [c]) n = mkChain xs (Node.dir [(c, n)] true) := by
  induction xs with
  | nil => rfl
  | cons a xs ih => simp [mkChain, ih]

/-! ## create_dir_all on a fresh path -/

theorem createDirAllGo_chain : ∀ (todo : List String) (fs : FS) (fuel : Nat)
    (base : List String),
    lookupPlain fs.root base = some (Node.dir [] true) →
    ∃ root', replaceAt fs.root base (mkChain todo (Node.dir [] true)) = some root'
      ∧ fs.createDirAllGo fuel base todo = some ⟨root', fs.cwd⟩ := by
  intro todo
  induction todo with
  | nil =>
    intro fs fuel base h
    exact ⟨fs.root, replaceAt_of_lookup_self h, rfl⟩
  | cons c rest ih =>
    intro fs fuel base h
    obtain ⟨r₂, hr₂⟩ := replaceAt_isSome h (Node.dir (setEntry [] c (Node.dir [] true)) true)
    have hsetAt : fs.setAt base c (Node.dir [] true) = some ⟨r₂, fs.cwd⟩ := by
      simp only [FS.setAt, h, hr₂]
    have hlk₂ : lookupPlain r₂ (base ++ [c]) = some (Node.dir [] true) := by
      rw [lookupPlain_replaceAt_append hr₂ [c]]
      simp [lookupPlain, setEntry, lookupEntry]
    obtain ⟨root', hrep', hgo⟩ := ih ⟨r₂, fs.cwd⟩ fuel (base ++ [c]) hlk₂
    refine ⟨root', ?_, ?_⟩
    · have hb := replaceAt_bind hr₂ [c] (mkChain rest (Node.dir [] true))
      have hinner : replaceAt (Node.dir (setEntry [] c (Node.dir [] true)) true) [c]
          (mkChain rest (Node.dir [] true))
          = some (Node.dir [(c, mkChain rest (Node.dir [] true))] true) := by
        simp [replaceAt, setEntry, lookupEntry]
      rw [hinner] at hb
      simp only [Option.some_bind] at hb
      have : replaceAt r₂ (base ++ [c]) (mkChain rest (Node.dir [] true)) = some root' := hrep'
      rw [this] at hb
      rw [mkChain]
      exact hb.symm
    · rw [FS.createDirAllGo, h]
      simp only [lookupEntry, if_pos rfl, hsetAt]
      exact hgo

theorem createDirAll_fresh (rootEs : List (String × Node)) (cwd : List String)
    (r₀ : String) (xs : List String) (hr : lookupEntry rootEs r₀ = none) :
    FS.createDirAll ⟨Node.dir rootEs true, cwd⟩ ⟨true, r₀ :: xs⟩
      = some ⟨Node.dir (setEntry rootEs r₀ (mkChain xs (Node.dir [] true))) true, cwd⟩ := by
  have hlk₂ : lookupPlain (Node.dir (setEntry rootEs r₀ (Node.dir [] true)) true) [r₀]
      = some (Node.dir [] true) := by
    simp [lookupPlain, lookupEntry_setEntry_self]
  obtain ⟨root', hrep', hgo⟩ :=
    createDirAllGo_chain xs ⟨Node.dir (setEntry rootEs r₀ (Node.dir [] true)) true, cwd⟩
      canonFuel [r₀] hlk₂
  have hroot' : root' = Node.dir (setEntry rootEs r₀ (mkChain xs (Node.dir [] true))) true := by
    have : replaceAt (Node.dir (setEntry rootEs r₀ (Node.dir [] true)) true) [r₀]
        (mkChain xs (Node.dir [] true))
        = some (Node.dir (setEntry (setEntry rootEs r₀ (Node.dir [] true)) r₀
            (mkChain xs (Node.dir [] true))) true) := by
      simp [replaceAt, lookupEntry_setEntry_self]
    rw [this] at hrep'
    simp only [Option.some.injEq] at hrep'
    rw [← hrep', setEntry_setEntry]
  subst hroot'
  rw [FS.createDirAll]
  have hne : ¬((⟨true, r₀ :: xs⟩ : RPath).comps = [] ∧ (⟨true, r₀ :: xs⟩ : RPath).absolute = false) := by
    simp
  rw [if_neg hne]
  have habs : FS.absComps ⟨Node.dir rootEs true, cwd⟩ ⟨true, r₀ :: xs⟩ = r₀ :: xs := rfl
  rw [habs]
  have hsetAt : FS.setAt ⟨Node.dir rootEs true, cwd⟩ [] r₀ (Node.dir [] true)
      = some ⟨Node.dir (setEntry rootEs r₀ (Node.dir [] true)) true, cwd⟩ := by
    simp [FS.setAt, lookupPlain, replaceAt]
  rw [FS.createDirAllGo]
  simp only [lookupPlain, hr, if_pos rfl, hsetAt]
  exact hgo

/-! ## File creation and removal on plainly located paths -/

theorem parentAndName_plain {fs : FS} {p : RPath} {pc : List String} {c : String}
    (habs : fs.absComps p = pc ++ [c]) (hplain : plainAt fs.root pc = true) :
    fs.parentAndName p = some (pc, c) := by
  simp only [FS.parentAndName, habs, List.getLast?_concat, List.dropLast_concat]
  rw [@canonGo_plain fs [] pc fs.root rfl hplain canonFuel]
  simp

theorem writeFile_plain {fs : FS} {p : RPath} {pc : List String} {c : String}
    {es : List (String × Node)} {w : Bool} (d : List Nat)
    (habs : fs.absComps p = pc ++ [c])
    (hplain : plainAt fs.root pc = true)
    (hlk : lookupPlain fs.root pc = some (Node.dir es w))
    (hcase : (lookupEntry es c = none ∧ w = true)
      ∨ ∃ d₀ r₀, lookupEntry es c = some (Node.file d₀ r₀)) :
    ∃ root', replaceAt fs.root pc (Node.dir (setEntry es c (Node.file d true)) w) = some root'
      ∧ fs.writeFile p d = some ⟨root', fs.cwd⟩ := by
  obtain ⟨root', hroot'⟩ := replaceAt_isSome hlk (Node.dir (setEntry es c (Node.file d true)) w)
  refine ⟨root', hroot', ?_⟩
  have hpn := parentAndName_plain habs hplain
  have hsetAt : fs.setAt pc c (Node.file d true) = some ⟨root', fs.cwd⟩ := by
    simp only [FS.setAt, hlk, hroot']
  rcases hcase with ⟨hnone, hw⟩ | ⟨d₀, r₀, hsome⟩
  · subst hw
    simp only [FS.writeFile, hpn, hlk, hnone, if_true]
    exact hsetAt
  · simp only [FS.writeFile, hpn, hlk, hsome]
    exact hsetAt

theorem removeFile_plain {fs : FS} {p : RPath} {pc : List String} {c : String}
    {es : List (String × Node)} {d₀ : List Nat} {r₀ : Bool}
    (habs : fs.absComps p = pc ++ [c])
    (hplain : plainAt fs.root pc = true)
    (hlk : lookupPlain fs.root pc = some (Node.dir es true))
    (hfile : lookupEntry es c = some (Node.file d₀ r₀)) :
    ∃ root', replaceAt fs.root pc (Node.dir (removeEntry es c) true) = some root'
      ∧ fs.removeFile p = some ⟨root', fs.cwd⟩ := by
  obtain ⟨root', hroot'⟩ := replaceAt_isSome hlk (Node.dir (removeEntry es c) true)
  refine ⟨root', hroot', ?_⟩
  have hpn := parentAndName_plain habs hplain
  have hdelAt : fs.delAt pc c = some ⟨root', fs.cwd⟩ := by
    simp only [FS.delAt, hlk, hroot']
  simp only [FS.removeFile, hpn, hlk, hfile, if_true]
  exact hdelAt

/-- Inversion for a successful File::create-and-write: it always acts at
the parent resolved by parentAndName, replacing the entry by the new
file. -/
theorem writeFile_inv {fs : FS} {p : RPath} {d : List Nat} {fs' : FS}
    (h : fs.writeFile p d = some fs') :
    ∃ pc c es w root',
      fs.parentAndName p = some (pc, c)
      ∧ lookupPlain fs.root pc = some (Node.dir es w)
      ∧ replaceAt fs.root pc (Node.dir (setEntry es c (Node.file d true)) w) = some root'
      ∧ fs' = ⟨root', fs.cwd⟩ := by
  cases hpn : fs.parentAndName p with
  | none => simp [FS.writeFile, hpn] at h
  | some pcc =>
    obtain ⟨pc, c⟩ := pcc
    cases hlk : lookupPlain fs.root pc with
    | none => simp [FS.writeFile, hpn, hlk] at h
    | some m =>
      cases m with
      | dir es w =>
        have hset : fs.setAt pc c (Node.file d true) = some fs' → ∃ root',
            replaceAt fs.root pc (Node.dir (setEntry es c (Node.file d true)) w) = some root'
            ∧ fs' = ⟨root', fs.cwd⟩ := by
          intro hs
          cases hrep : replaceAt fs.root pc (Node.dir (setEntry es c (Node.file d true)) w) with
          | none => simp [FS.setAt, hlk, hrep] at hs
          | some root' =>
            simp only [FS.setAt, hlk, hrep, Option.some.injEq] at hs
            exact ⟨root', rfl, hs.symm⟩
        cases hz : lookupEntry es c with
        | some x =>
          cases x with
          | file d₁ r₁ =>
            simp only [FS.writeFile, hpn, hlk, hz] at h
            obtain ⟨root', h1, h2⟩ := hset h
            exact ⟨pc, c, es, w, root', rfl, hlk, h1, h2⟩
          | dir es₁ w₁ => simp [FS.writeFile, hpn, hlk, hz] at h
          | link t => simp [FS.writeFile, hpn, hlk, hz] at h
          | special => simp [FS.writeFile, hpn, hlk, hz] at h
        | none =>
          cases hw : w with
          | false => simp [FS.writeFile, hpn, hlk, hz, hw, if_false] at h
          | true =>
            simp only [FS.writeFile, hpn, hlk, hz, hw, if_true] at h
            obtain ⟨root', h1, h2⟩ := hset h
            exact ⟨pc, c, es, true, root', rfl, hw ▸ hlk, hw ▸ h1, h2⟩
      | file d₁ r₁ => simp [FS.writeFile, hpn, hlk] at h
      | link t => simp [FS.writeFile, hpn, hlk] at h
      | special => simp [FS.writeFile, hpn, hlk] at h

/-! ## Scenario micro-lemmas -/

theorem lookupPlain_cons_entry {es : List (String × Node)} {c : String} {x : Node} {w : Bool}
    (h : lookupEntry es c = some x) (cs : List String) :
    lookupPlain (Node.dir es w) (c :: cs) = lookupPlain x cs := by
  simp [lookupPlain, h]

theorem plainAt_cons_entry {es : List (String × Node)} {c : String} {x : Node} {w : Bool}
    (h : lookupEntry es c = some x) (hnl : ∀ t, x ≠ Node.link t) {cs : List String}
    (hp : plainAt x cs = true) : plainAt (Node.dir es w) (c :: cs) = true := by
  simp only [plainAt, h]
  cases x with
  | dir es₁ w₁ => exact hp
  | file d r => exact hp
  | link t => exact absurd rfl (hnl t)
  | special => exact hp

theorem plainAt_append_of {root : Node} {xs ys : List String} {m : Node}
    (h1 : plainAt root xs = true) (h2 : lookupPlain root xs = some m)
    (h3 : plainAt m ys = true) : plainAt root (xs ++ ys) = true := by
  induction xs generalizing root with
  | nil =>
    simp only [lookupPlain, Option.some.injEq] at h2
    subst h2
    exact h3
  | cons c xs ih =>
    cases root with
    | dir es w =>
      cases hz : lookupEntry es c with
      | some x =>
        simp only [lookupPlain, hz] at h2
        have hnl : ∀ t, x ≠ Node.link t := by
          intro t hx
          subst hx
          simp only [plainAt, hz] at h1
          exact absurd h1 (by simp)
        have hx : plainAt x xs = true := by
          simp only [plainAt, hz] at h1
          cases x with
          | dir es₁ w₁ => exact h1
          | file d r => exact h1
          | link t => exact absurd rfl (hnl t)
          | special => exact h1
        rw [List.cons_append]
        exact plainAt_cons_entry hz hnl (ih hx h2)
      | none =>
        simp only [lookupPlain, hz] at h2
        exact absurd h2 (by simp)
    | file d r => simp only [plainAt] at h1; exact absurd h1 (by simp)
    | link t => simp only [plainAt] at h1; exact absurd h1 (by simp)
    | special => simp only [plainAt] at h1; exact absurd h1 (by simp)

theorem plainAt_of_append {root : Node} {xs ys : List String}
    (h : plainAt root (xs ++ ys) = true) : plainAt root xs = true := by
  induction xs generalizing root with
  | nil => rfl
  | cons c xs ih =>
    cases root with
    | dir es w =>
      cases hz : lookupEntry es c with
      | some x =>
        rw [List.cons_append] at h
        simp only [plainAt, hz] at h ⊢
        cases x with
        | dir es₁ w₁ => exact ih h
        | file d r => exact ih h
        | link t => exact absurd h (by simp)
        | special => exact ih h
      | none =>
        rw [List.cons_append] at h
        simp only [plainAt, hz] at h
        exact absurd h (by simp)
    | file d r => rw [List.cons_append] at h; simp only [plainAt] at h; exact absurd h (by simp)
    | link t => rw [List.cons_append] at h; simp only [plainAt] at h; exact absurd h (by simp)
    | special => rw [List.cons_append] at h; simp only [plainAt] at h; exact absurd h (by simp)

theorem lookupEntry_split {pre post : List (String × Node)} {n : String} {x : Node}
    (hnodup : (((pre ++ (n, x) :: post).map Prod.fst)).Nodup) :
    lookupEntry (pre ++ (n, x) :: post) n = some x := by
  induction pre with
  | nil => simp [lookupEntry]
  | cons e rest ih =>
    obtain ⟨m, y⟩ := e
    simp only [List.cons_append, List.map_cons, List.nodup_cons] at hnodup
    have hm : m ≠ n := by
      intro hmn
      subst hmn
      exact hnodup.1 (by simp)
    rw [List.cons_append]
    simp only [lookupEntry]
    rw [if_neg hm]
    exact ih hnodup.2

theorem replaceAt_R (rootEs acc : List (String × Node)) (r₀ : String) (cs : List String)
    (Z : Node) :
    replaceAt (Node.dir (setEntry rootEs r₀ (mkChain cs (Node.dir acc true))) true)
        (r₀ :: cs) Z
      = some (Node.dir (setEntry rootEs r₀ (mkChain cs Z)) true) := by
  simp only [replaceAt, lookupEntry_setEntry_self, replaceAt_mkChain, setEntry_setEntry]

theorem lookupPlain_top_ne {es : List (String × Node)} {r₀ c : String} (X : Node) {w : Bool}
    (h : c ≠ r₀) (cs : List String) :
    lookupPlain (Node.dir (setEntry es r₀ X) w) (c :: cs)
      = lookupPlain (Node.dir es w) (c :: cs) := by
  simp only [lookupPlain, lookupEntry_setEntry_ne _ _ h]

theorem plainAt_top_ne {es : List (String × Node)} {r₀ c : String} (X : Node) {w : Bool}
    (h : c ≠ r₀) (cs : List String) :
    plainAt (Node.dir (setEntry es r₀ X) w) (c :: cs)
      = plainAt (Node.dir es w) (c :: cs) := by
  simp only [plainAt, lookupEntry_setEntry_ne _ _ h]

theorem plainAt_R (rootEs acc : List (String × Node)) (r₀ : String) (cs : List String) :
    plainAt (Node.dir (setEntry rootEs r₀ (mkChain cs (Node.dir acc true))) true)
      (r₀ :: cs) = true := by
  refine plainAt_cons_entry (lookupEntry_setEntry_self _ _ _) ?_ (plainAt_mkChain cs acc true)
  intro t ht
  obtain ⟨es', w', hh⟩ := mkChain_isDir cs acc true
  rw [hh] at ht
  exact Node.noConfusion ht

theorem lookupPlain_R (rootEs acc : List (String × Node)) (r₀ : String) (cs : List String) :
    lookupPlain (Node.dir (setEntry rootEs r₀ (mkChain cs (Node.dir acc true))) true)
      (r₀ :: cs) = some (Node.dir acc true) := by
  rw [lookupPlain_cons_entry (lookupEntry_setEntry_self _ _ _), lookupPlain_mkChain]

/-! # Claim C4 -/

/-- Claim C4: mirroring an absolute path that names a readable regular
file succeeds: the full absolute parent directory chain is recreated under
the staging root and the file is copied byte-for-byte into it under its
own name, so the mirrored copy sits at the staging root followed by the
full source path. -/
theorem claim_C4 (fuel : Nat) (rootEs : List (String × Node)) (cwd : List String)
    (r₀ s₀ lastName : String) (sTail : List String) (data : List Nat)
    (hlast : (s₀ :: sTail).getLast? = some lastName)
    (hhead : s₀ ≠ r₀)
    (hr₀ : lookupEntry rootEs r₀ = none)
    (hplain : plainAt (Node.dir rootEs true) (s₀ :: sTail) = true)
    (hfile : lookupPlain (Node.dir rootEs true) (s₀ :: sTail) = some (Node.file data true)) :
    backup_directory_contents (fuel + 1) ⟨true, s₀ :: sTail⟩ ⟨true, [r₀]⟩
        ⟨Node.dir rootEs true, cwd⟩
      = some (Except.ok (),
          ⟨Node.dir (setEntry rootEs r₀ (mkChain (s₀ :: sTail) (Node.file data true))) true,
            cwd⟩, []) := by
  have hsplit : (s₀ :: sTail).dropLast ++ [lastName] = s₀ :: sTail :=
    List.dropLast_append_getLast? lastName hlast
  set src : RPath := ⟨true, s₀ :: sTail⟩ with hsrcdef
  set fs₀ : FS := ⟨Node.dir rootEs true, cwd⟩ with hfs₀
  have habs₀ : fs₀.absComps src = s₀ :: sTail := rfl
  have hstat₀ : fs₀.stat src = some (Node.file data true) := by
    rw [stat_plain (by rw [habs₀]; exact hplain), habs₀]
    exact hfile
  have hisdir₀ : fs₀.isDir src = false := by
    simp [FS.isDir, hstat₀]
  have hisfile₀ : fs₀.isFile src = true := by
    simp [FS.isFile, hstat₀]
  -- the re-parented destination and its parent
  have hfull : build_full_backup_path src ⟨true, [r₀]⟩ = ⟨true, r₀ :: (s₀ :: sTail)⟩ := by
    simp [build_full_backup_path, stripRootDir, RPath.join]
  have hparent : (⟨true, r₀ :: (s₀ :: sTail)⟩ : RPath).parent
      = some ⟨true, r₀ :: (s₀ :: sTail).dropLast⟩ := by
    simp only [RPath.parent]
    rw [show (r₀ :: (s₀ :: sTail)) = (r₀ :: (s₀ :: sTail).dropLast) ++ [lastName] from by
      rw [List.cons_append, hsplit]]
    rw [List.dropLast_concat]
  -- create_dir_all on the fresh parent chain
  have hcreate := createDirAll_fresh rootEs cwd r₀ (s₀ :: sTail).dropLast hr₀
  set chain := mkChain (s₀ :: sTail).dropLast (Node.dir [] true) with hchain
  set R₁ : Node := Node.dir (setEntry rootEs r₀ chain) true with hR₁
  set fs₁ : FS := ⟨R₁, cwd⟩ with hfs₁
  -- stat of the source file in the staged filesystem
  have hplain₁ : plainAt R₁ (s₀ :: sTail) = true := by
    rw [hR₁, plainAt_top_ne chain hhead]
    exact hplain
  have hlk₁ : lookupPlain R₁ (s₀ :: sTail) = some (Node.file data true) := by
    rw [hR₁, lookupPlain_top_ne chain hhead]
    exact hfile
  have hstat₁ : fs₁.stat src = some (Node.file data true) := by
    rw [stat_plain (by exact hplain₁)]
    exact hlk₁
  have hisdir₁ : fs₁.isDir src = false := by simp [FS.isDir, hstat₁]
  have hisfile₁ : fs₁.isFile src = true := by simp [FS.isFile, hstat₁]
  -- the copy step
  have hread : fs₁.readFileData src = some data := by
    simp [FS.readFileData, hstat₁]
  set dest : RPath := RPath.push ⟨true, r₀ :: (s₀ :: sTail).dropLast⟩ lastName with hdest
  have habsdest : fs₁.absComps dest = (r₀ :: (s₀ :: sTail).dropLast) ++ [lastName] := rfl
  have hplainpc : plainAt R₁ (r₀ :: (s₀ :: sTail).dropLast) = true := by
    rw [hR₁, hchain]
    exact plainAt_R rootEs [] r₀ (s₀ :: sTail).dropLast
  have hlkpc : lookupPlain R₁ (r₀ :: (s₀ :: sTail).dropLast) = some (Node.dir [] true) := by
    rw [hR₁, hchain]
    exact lookupPlain_R rootEs [] r₀ (s₀ :: sTail).dropLast
  obtain ⟨root', hroot', hwrite⟩ :=
    @writeFile_plain fs₁ dest (r₀ :: (s₀ :: sTail).dropLast) lastName [] true
      data habsdest hplainpc hlkpc (Or.inl ⟨rfl, rfl⟩)
  have hroot'' : replaceAt
        (Node.dir (setEntry rootEs r₀ (mkChain (s₀ :: sTail).dropLast (Node.dir [] true))) true)
        (r₀ :: (s₀ :: sTail).dropLast)
        (Node.dir (setEntry [] lastName (Node.file data true)) true) = some root' := hroot'
  have hroot'eq : root'
      = Node.dir (setEntry rootEs r₀ (mkChain (s₀ :: sTail) (Node.file data true))) true := by
    rw [replaceAt_R rootEs [] r₀ (s₀ :: sTail).dropLast] at hroot''
    simp only [Option.some.injEq] at hroot''
    rw [← hroot'']
    rw [show setEntry ([] : List (String × Node)) lastName (Node.file data true)
        = [(lastName, Node.file data true)] from rfl]
    rw [← mkChain_append, hsplit]
  have hcopy : fs₁.copyFile src dest = some ⟨root', cwd⟩ := by
    simp only [FS.copyFile, hread]
    rw [hwrite]
  -- assemble
  rw [backup_directory_contents]
  simp only [hisdir₀, if_false]
  rw [backup_file]
  simp only [hisfile₀]
  rw [hfull, hparent]
  simp only []
  rw [hcreate]
  simp only [copy_file_from_folder]
  simp only [hisdir₁, if_false, hisfile₁]
  have hfn : src.fileName = some lastName := hlast
  rw [hfn]
  simp only []
  rw [show RPath.push ⟨true, r₀ :: (s₀ :: sTail).dropLast⟩ lastName = dest from rfl]
  rw [hcopy, hroot'eq]
  simp

/-- Concrete instance of claim C4: /home/u/f.txt is mirrored to
/bk/home/u/f.txt with the same bytes. -/
theorem claim_C4_witness :
    backup_directory_contents 2 ⟨true, [("home"), ("u"), ("f.txt")]⟩ ⟨true, [("bk")]⟩
        ⟨Node.dir [(("home"), Node.dir [(("u"),
            Node.dir [(("f.txt"), Node.file [1, 2] true)] true)] true)] true, []⟩
      = some (Except.ok (),
          ⟨Node.dir (setEntry [(("home"), Node.dir [(("u"),
              Node.dir [(("f.txt"), Node.file [1, 2] true)] true)] true)] ("bk")
              (mkChain [("home"), ("u"), ("f.txt")] (Node.file [1, 2] true))) true, []⟩, []) :=
  claim_C4 1
    [(("home"), Node.dir [(("u"), Node.dir [(("f.txt"), Node.file [1, 2] true)] true)] true)]
    [] ("bk") ("home") ("f.txt") [("u"), ("f.txt")] [1, 2]
    rfl (by decide) rfl rfl rfl

/-! # Walking a directory of regular files -/

theorem lookupEntry_append_none {es₁ es₂ : List (String × Node)} {c : String}
    (h₁ : lookupEntry es₁ c = none) (h₂ : lookupEntry es₂ c = none) :
    lookupEntry (es₁ ++ es₂) c = none := by
  induction es₁ with
  | nil => exact h₂
  | cons e rest ih =>
    obtain ⟨n, y⟩ := e
    by_cases hn : n = c
    · rw [lookupEntry, if_pos hn] at h₁
      exact absurd h₁ (by simp)
    · rw [lookupEntry, if_neg hn] at h₁
      rw [List.cons_append]
      simp only [lookupEntry]
      rw [if_neg hn]
      exact ih h₁

theorem lookupEntry_of_mem_nodup {es : List (String × Node)}
    (hnodup : (es.map Prod.fst).Nodup) :
    ∀ p ∈ es, lookupEntry es p.1 = some p.2 := by
  induction es with
  | nil => intro p hp; exact absurd hp (by simp)
  | cons e rest ih =>
    obtain ⟨n, y⟩ := e
    simp only [List.map_cons, List.nodup_cons] at hnodup
    obtain ⟨hn, hrest⟩ := hnodup
    intro p hp
    rcases List.mem_cons.mp hp with hp | hp
    · subst hp
      simp [lookupEntry]
    · have hne : n ≠ p.1 := fun hh => hn (hh ▸ List.mem_map_of_mem Prod.fst hp)
      rw [lookupEntry, if_neg hne]
      exact ih hrest p hp

theorem fileName_push (p : RPath) (c : String) : (p.push c).fileName = some c := by
  simp [RPath.push, RPath.fileName]

/-- Stat of a child entry of the source directory, in the filesystem where
the staging chain has already been created under a distinct root entry. -/
theorem child_stat (rootEs acc : List (String × Node)) (cwd : List String)
    (r₀ s₀ name : String) (sRest : List String)
    (es : List (String × Node)) (wS : Bool) (node : Node)
    (hhead : s₀ ≠ r₀)
    (hplain : plainAt (Node.dir rootEs true) (s₀ :: sRest) = true)
    (hsrc : lookupPlain (Node.dir rootEs true) (s₀ :: sRest) = some (Node.dir es wS))
    (hmem : lookupEntry es name = some node)
    (hnl : ∀ t, node ≠ Node.link t) :
    FS.stat ⟨Node.dir (setEntry rootEs r₀ (mkChain (s₀ :: sRest) (Node.dir acc true))) true, cwd⟩
        (RPath.push ⟨true, s₀ :: sRest⟩ name) = some node := by
  have hplainC : plainAt
      (Node.dir (setEntry rootEs r₀ (mkChain (s₀ :: sRest) (Node.dir acc true))) true)
      ((s₀ :: sRest) ++ [name]) = true := by
    rw [List.cons_append]
    rw [plainAt_top_ne _ hhead]
    rw [← List.cons_append]
    exact plainAt_append_of hplain hsrc (plainAt_cons_entry hmem hnl (by rfl))
  have hlkC : lookupPlain
      (Node.dir (setEntry rootEs r₀ (mkChain (s₀ :: sRest) (Node.dir acc true))) true)
      ((s₀ :: sRest) ++ [name]) = some node := by
    rw [List.cons_append]
    rw [lookupPlain_top_ne _ hhead]
    rw [← List.cons_append]
    rw [lookupPlain_append, hsrc, Option.some_bind]
    rw [lookupPlain_cons_entry hmem]
    rfl
  rw [stat_plain (by exact hplainC)]
  exact hlkC

theorem filterMap_copyKeep_readable {l : List (String × Node)}
    (h : ∀ p ∈ l, ∃ d, p.2 = Node.file d true) : l.filterMap copyKeep = l := by
  induction l with
  | nil => rfl
  | cons p rest ih =>
    obtain ⟨n, y⟩ := p
    obtain ⟨d, hd⟩ := h ⟨n, y⟩ (List.mem_cons_self _ _)
    simp only [] at hd
    subst hd
    rw [List.filterMap_cons]
    simp only [copyKeep]
    rw [ih (fun q hq => h q (List.mem_cons_of_mem _ hq))]

theorem filterMap_copyDiag_readable {l : List (String × Node)} (a b : RPath)
    (h : ∀ p ∈ l, ∃ d, p.2 = Node.file d true) : l.filterMap (copyDiag a b) = [] := by
  induction l with
  | nil => rfl
  | cons p rest ih =>
    obtain ⟨n, y⟩ := p
    obtain ⟨d, hd⟩ := h ⟨n, y⟩ (List.mem_cons_self _ _)
    simp only [] at hd
    subst hd
    rw [List.filterMap_cons]
    simp only [copyDiag]
    exact ih (fun q hq => h q (List.mem_cons_of_mem _ hq))

/-- The read_dir loop of backup_directory_contents over a directory whose
remaining entries are all regular files: every readable file is appended
to the staging directory, every unreadable one is reported with a
failed-copy notice, and the loop succeeds. -/
theorem readDirLoop_files (fuel : Nat) (rootEs : List (String × Node)) (cwd : List String)
    (r₀ s₀ : String) (sRest : List String) (es : List (String × Node)) (wS : Bool)
    (todo : List (String × Node))
    (hhead : s₀ ≠ r₀)
    (hplain : plainAt (Node.dir rootEs true) (s₀ :: sRest) = true)
    (hsrc : lookupPlain (Node.dir rootEs true) (s₀ :: sRest) = some (Node.dir es wS))
    (hfiles : ∀ p ∈ todo, ∃ d r, p.2 = Node.file d r)
    (hmem : ∀ p ∈ todo, lookupEntry es p.1 = some p.2)
    (hnodup : (todo.map Prod.fst).Nodup) :
    ∀ acc : List (String × Node), (∀ p ∈ todo, lookupEntry acc p.1 = none) →
    readDirLoop (fuel + 1) (todo.map (fun e => RPath.push ⟨true, s₀ :: sRest⟩ e.1))
        ⟨true, r₀ :: s₀ :: sRest⟩ ⟨true, [r₀]⟩
        ⟨Node.dir (setEntry rootEs r₀ (mkChain (s₀ :: sRest) (Node.dir acc true))) true, cwd⟩
      = some (Except.ok (),
          ⟨Node.dir (setEntry rootEs r₀ (mkChain (s₀ :: sRest)
              (Node.dir (acc ++ todo.filterMap copyKeep) true))) true, cwd⟩,
          todo.filterMap (copyDiag ⟨true, s₀ :: sRest⟩ ⟨true, r₀ :: s₀ :: sRest⟩)) := by
  induction todo with
  | nil =>
    intro acc hfresh
    simp [readDirLoop]
  | cons p todo ih =>
    intro acc hfresh
    obtain ⟨name, node⟩ := p
    obtain ⟨d, rd, hnode⟩ := hfiles ⟨name, node⟩ (List.mem_cons_self _ _)
    simp only [] at hnode
    subst hnode
    simp only [List.map_cons, List.nodup_cons] at hnodup
    obtain ⟨hname, hnodup'⟩ := hnodup
    have hmem₀ : lookupEntry es name = some (Node.file d rd) :=
      hmem ⟨name, Node.file d rd⟩ (List.mem_cons_self _ _)
    have hstat := child_stat rootEs acc cwd r₀ s₀ name sRest es wS (Node.file d rd)
      hhead hplain hsrc hmem₀ (fun t ht => Node.noConfusion ht)
    have hisdir : FS.isDir
        ⟨Node.dir (setEntry rootEs r₀ (mkChain (s₀ :: sRest) (Node.dir acc true))) true, cwd⟩
        (RPath.push ⟨true, s₀ :: sRest⟩ name) = false := by
      simp [FS.isDir, hstat]
    have hisfile : FS.isFile
        ⟨Node.dir (setEntry rootEs r₀ (mkChain (s₀ :: sRest) (Node.dir acc true))) true, cwd⟩
        (RPath.push ⟨true, s₀ :: sRest⟩ name) = true := by
      simp [FS.isFile, hstat]
    have hfiles' : ∀ q ∈ todo, ∃ d₁ r₁, q.2 = Node.file d₁ r₁ :=
      fun q hq => hfiles q (List.mem_cons_of_mem _ hq)
    have hmem' : ∀ q ∈ todo, lookupEntry es q.1 = some q.2 :=
      fun q hq => hmem q (List.mem_cons_of_mem _ hq)
    cases rd with
    | false =>
      have hread : FS.readFileData
          ⟨Node.dir (setEntry rootEs r₀ (mkChain (s₀ :: sRest) (Node.dir acc true))) true, cwd⟩
          (RPath.push ⟨true, s₀ :: sRest⟩ name) = none := by
        simp [FS.readFileData, hstat]
      have hcopy : FS.copyFile
          ⟨Node.dir (setEntry rootEs r₀ (mkChain (s₀ :: sRest) (Node.dir acc true))) true, cwd⟩
          (RPath.push ⟨true, s₀ :: sRest⟩ name)
          (RPath.push ⟨true, r₀ :: s₀ :: sRest⟩ name) = none := by
        simp [FS.copyFile, hread]
      have hrec := ih hfiles' hmem' hnodup' acc
        (fun q hq => hfresh q (List.mem_cons_of_mem _ hq))
      simp only [List.map_cons, readDirLoop]
      simp only [copy_file_from_folder, hisdir, hisfile, fileName_push, hcopy]
      simp only [Bool.false_eq_true, if_false, if_neg (by simp : ¬(true = false))]
      rw [hrec]
      simp [List.filterMap_cons, copyKeep, copyDiag]
    | true =>
      have hread : FS.readFileData
          ⟨Node.dir (setEntry rootEs r₀ (mkChain (s₀ :: sRest) (Node.dir acc true))) true, cwd⟩
          (RPath.push ⟨true, s₀ :: sRest⟩ name) = some d := by
        simp [FS.readFileData, hstat]
      obtain ⟨root', hroot', hwrite⟩ := @writeFile_plain
        ⟨Node.dir (setEntry rootEs r₀
          (mkChain (s₀ :: sRest) (Node.dir acc true))) true, cwd⟩
        (RPath.push ⟨true, r₀ :: s₀ :: sRest⟩ name)
        (r₀ :: s₀ :: sRest) name acc true d rfl
        (plainAt_R rootEs acc r₀ (s₀ :: sRest))
        (lookupPlain_R rootEs acc r₀ (s₀ :: sRest))
        (Or.inl ⟨hfresh ⟨name, Node.file d true⟩ (List.mem_cons_self _ _), rfl⟩)
      have hroot'' : replaceAt
          (Node.dir (setEntry rootEs r₀ (mkChain (s₀ :: sRest) (Node.dir acc true))) true)
          (r₀ :: s₀ :: sRest)
          (Node.dir (setEntry acc name (Node.file d true)) true) = some root' := hroot'
      have hroot'eq : root' = Node.dir (setEntry rootEs r₀ (mkChain (s₀ :: sRest)
          (Node.dir (acc ++ [(name, Node.file d true)]) true))) true := by
        rw [replaceAt_R rootEs acc r₀ (s₀ :: sRest)] at hroot''
        simp only [Option.some.injEq] at hroot''
        rw [← hroot'',
          setEntry_of_not_mem (hfresh ⟨name, Node.file d true⟩ (List.mem_cons_self _ _))]
      have hcopy : FS.copyFile
          ⟨Node.dir (setEntry rootEs r₀ (mkChain (s₀ :: sRest) (Node.dir acc true))) true, cwd⟩
          (RPath.push ⟨true, s₀ :: sRest⟩ name)
          (RPath.push ⟨true, r₀ :: s₀ :: sRest⟩ name) = some ⟨root', cwd⟩ := by
        simp only [FS.copyFile, hread]
        rw [hwrite]
      have hfresh' : ∀ q ∈ todo,
          lookupEntry (acc ++ [(name, Node.file d true)]) q.1 = none := by
        intro q hq
        refine lookupEntry_append_none (hfresh q (List.mem_cons_of_mem _ hq)) ?_
        have hne : name ≠ q.1 := fun hh => hname (hh ▸ List.mem_map_of_mem Prod.fst hq)
        simp [lookupEntry, hne]
      have hrec := ih hfiles' hmem' hnodup' (acc ++ [(name, Node.file d true)]) hfresh'
      simp only [List.map_cons, readDirLoop]
      simp only [copy_file_from_folder, hisdir, hisfile, fileName_push, hcopy]
      simp only [Bool.false_eq_true, if_false, if_neg (by simp : ¬(true = false))]
      rw [hroot'eq, hrec]
      simp [List.filterMap_cons, copyKeep, copyDiag, List.append_assoc]

/-! # Claim C6 -/

/-- Claim C6: mirroring a directory of regular files among which exactly
one is unreadable copies every other file into the staged mirror of the
directory, emits exactly one failed-copy diagnostic naming the unreadable
file, and still returns success. -/
theorem claim_C6 (fuel : Nat) (rootEs : List (String × Node)) (cwd : List String)
    (r₀ s₀ bad : String) (sRest : List String)
    (pre post : List (String × Node)) (dbad : List Nat) (wS : Bool)
    (hhead : s₀ ≠ r₀)
    (hr₀ : lookupEntry rootEs r₀ = none)
    (hplain : plainAt (Node.dir rootEs true) (s₀ :: sRest) = true)
    (hsrc : lookupPlain (Node.dir rootEs true) (s₀ :: sRest)
      = some (Node.dir (pre ++ (bad, Node.file dbad false) :: post) wS))
    (hpre : ∀ p ∈ pre, ∃ d, p.2 = Node.file d true)
    (hpost : ∀ p ∈ post, ∃ d, p.2 = Node.file d true)
    (hnodup : (((pre ++ (bad, Node.file dbad false) :: post).map Prod.fst)).Nodup) :
    backup_directory_contents (fuel + 1) ⟨true, s₀ :: sRest⟩ ⟨true, [r₀]⟩
        ⟨Node.dir rootEs true, cwd⟩
      = some (Except.ok (),
          ⟨Node.dir (setEntry rootEs r₀ (mkChain (s₀ :: sRest)
              (Node.dir (pre ++ post) true))) true, cwd⟩,
          [Diag.copyFailed (RPath.push ⟨true, s₀ :: sRest⟩ bad)
            (RPath.push ⟨true, r₀ :: s₀ :: sRest⟩ bad)]) := by
  have hstat₀ : FS.stat ⟨Node.dir rootEs true, cwd⟩ ⟨true, s₀ :: sRest⟩
      = some (Node.dir (pre ++ (bad, Node.file dbad false) :: post) wS) := by
    rw [stat_plain (by exact hplain)]
    exact hsrc
  have hisdir₀ : FS.isDir ⟨Node.dir rootEs true, cwd⟩ ⟨true, s₀ :: sRest⟩ = true := by
    simp [FS.isDir, hstat₀]
  have hfull : build_full_backup_path ⟨true, s₀ :: sRest⟩ ⟨true, [r₀]⟩
      = ⟨true, r₀ :: s₀ :: sRest⟩ := by
    simp [build_full_backup_path, stripRootDir, RPath.join]
  have hcreate := createDirAll_fresh rootEs cwd r₀ (s₀ :: sRest) hr₀
  have hstat₁ : FS.stat
      ⟨Node.dir (setEntry rootEs r₀ (mkChain (s₀ :: sRest) (Node.dir [] true))) true, cwd⟩
      ⟨true, s₀ :: sRest⟩
      = some (Node.dir (pre ++ (bad, Node.file dbad false) :: post) wS) := by
    rw [stat_plain (by
      show plainAt (Node.dir (setEntry rootEs r₀
        (mkChain (s₀ :: sRest) (Node.dir [] true))) true) (s₀ :: sRest) = true
      rw [plainAt_top_ne _ hhead]
      exact hplain)]
    show lookupPlain (Node.dir (setEntry rootEs r₀
      (mkChain (s₀ :: sRest) (Node.dir [] true))) true) (s₀ :: sRest) = _
    rw [lookupPlain_top_ne _ hhead]
    exact hsrc
  have hfiles : ∀ p ∈ pre ++ (bad, Node.file dbad false) :: post,
      ∃ d₁ r₁, p.2 = Node.file d₁ r₁ := by
    intro p hp
    rcases List.mem_append.mp hp with hp | hp
    · obtain ⟨d₁, hd₁⟩ := hpre p hp
      exact ⟨d₁, true, hd₁⟩
    · rcases List.mem_cons.mp hp with hp | hp
      · subst hp
        exact ⟨dbad, false, rfl⟩
      · obtain ⟨d₁, hd₁⟩ := hpost p hp
        exact ⟨d₁, true, hd₁⟩
  have hloop := readDirLoop_files fuel rootEs cwd r₀ s₀ sRest
    (pre ++ (bad, Node.file dbad false) :: post) wS
    (pre ++ (bad, Node.file dbad false) :: post)
    hhead hplain hsrc hfiles (lookupEntry_of_mem_nodup hnodup) hnodup
    [] (fun q hq => rfl)
  have hkeep : (pre ++ (bad, Node.file dbad false) :: post).filterMap copyKeep
      = pre ++ post := by
    rw [List.filterMap_append, List.filterMap_cons,
      filterMap_copyKeep_readable hpre, filterMap_copyKeep_readable hpost]
    rfl
  have hdiag : (pre ++ (bad, Node.file dbad false) :: post).filterMap
        (copyDiag ⟨true, s₀ :: sRest⟩ ⟨true, r₀ :: s₀ :: sRest⟩)
      = [Diag.copyFailed (RPath.push ⟨true, s₀ :: sRest⟩ bad)
          (RPath.push ⟨true, r₀ :: s₀ :: sRest⟩ bad)] := by
    rw [List.filterMap_append, List.filterMap_cons,
      filterMap_copyDiag_readable _ _ hpre, filterMap_copyDiag_readable _ _ hpost]
    rfl
  rw [List.nil_append, hkeep, hdiag] at hloop
  rw [backup_directory_contents]
  simp only [hisdir₀, if_neg (by simp : ¬(true = false))]
  rw [hfull]
  rw [hcreate]
  simp only []
  rw [hstat₁]
  simp only [Bool.false_eq_true, if_false]
  exact hloop

/-- Concrete instance of claim C6: /src holds readable a and b and
unreadable bad; a and b are mirrored, bad yields the one diagnostic, the
call succeeds. -/
theorem claim_C6_witness :
    backup_directory_contents 1 ⟨true, [("src")]⟩ ⟨true, [("bk")]⟩
        ⟨Node.dir [(("src"), Node.dir [(("a"), Node.file [1] true),
            (("bad"), Node.file [9] false), (("b"), Node.file [2] true)] true)] true, []⟩
      = some (Except.ok (),
          ⟨Node.dir (setEntry [(("src"), Node.dir [(("a"), Node.file [1] true),
              (("bad"), Node.file [9] false), (("b"), Node.file [2] true)] true)] ("bk")
              (mkChain [("src")] (Node.dir [(("a"), Node.file [1] true),
                (("b"), Node.file [2] true)] true))) true, []⟩,
          [Diag.copyFailed (RPath.push ⟨true, [("src")]⟩ ("bad"))
            (RPath.push ⟨true, [("bk"), ("src")]⟩ ("bad"))]) :=
  claim_C6 0
    [(("src"), Node.dir [(("a"), Node.file [1] true),
      (("bad"), Node.file [9] false), (("b"), Node.file [2] true)] true)]
    [] ("bk") ("src") ("bad") []
    [(("a"), Node.file [1] true)] [(("b"), Node.file [2] true)] [9] true
    (by decide) rfl rfl rfl
    (by intro p hp; rw [List.mem_singleton] at hp; subst hp; exact ⟨[1], rfl⟩)
    (by intro p hp; rw [List.mem_singleton] at hp; subst hp; exact ⟨[2], rfl⟩)
    (by decide)

/-! # Walking a directory that contains a self-referential symlink -/

theorem child_lookup (rootEs acc : List (String × Node)) (r₀ s₀ name : String)
    (sRest : List String) (es : List (String × Node)) (wS : Bool) (node : Node)
    (hhead : s₀ ≠ r₀)
    (hsrc : lookupPlain (Node.dir rootEs true) (s₀ :: sRest) = some (Node.dir es wS))
    (hmem : lookupEntry es name = some node) :
    lookupPlain (Node.dir (setEntry rootEs r₀ (mkChain (s₀ :: sRest) (Node.dir acc true))) true)
      ((s₀ :: sRest) ++ [name]) = some node := by
  rw [List.cons_append]
  rw [lookupPlain_top_ne _ hhead]
  rw [← List.cons_append]
  rw [lookupPlain_append, hsrc, Option.some_bind]
  rw [lookupPlain_cons_entry hmem]
  rfl

/-- Canonical resolution of a child symlink whose target is the walked
source directory itself: it resolves to the source directory's own
canonical components, spending one unit of link fuel. -/
theorem link_child_canon (rootEs acc : List (String × Node)) (cwd : List String)
    (r₀ s₀ name : String) (sRest : List String) (es : List (String × Node)) (wS : Bool)
    (hhead : s₀ ≠ r₀)
    (hplain : plainAt (Node.dir rootEs true) (s₀ :: sRest) = true)
    (hsrc : lookupPlain (Node.dir rootEs true) (s₀ :: sRest) = some (Node.dir es wS))
    (hmem : lookupEntry es name = some (Node.link ⟨true, s₀ :: sRest⟩)) :
    FS.canon
      ⟨Node.dir (setEntry rootEs r₀ (mkChain (s₀ :: sRest) (Node.dir acc true))) true, cwd⟩
      (RPath.push ⟨true, s₀ :: sRest⟩ name) = some (s₀ :: sRest) := by
  have hplainR : plainAt
      (Node.dir (setEntry rootEs r₀ (mkChain (s₀ :: sRest) (Node.dir acc true))) true)
      (s₀ :: sRest) = true := by
    rw [plainAt_top_ne _ hhead]
    exact hplain
  have hlkChild := child_lookup rootEs acc r₀ s₀ name sRest es wS _ hhead hsrc hmem
  have hstep := @canonStep_plain (s₀ :: sRest)
    ⟨Node.dir (setEntry rootEs r₀
      (mkChain (s₀ :: sRest) (Node.dir acc true))) true, cwd⟩
    [] (Node.dir (setEntry rootEs r₀ (mkChain (s₀ :: sRest) (Node.dir acc true))) true)
    rfl hplainR [name]
  rw [List.nil_append] at hstep
  have hstep2 : canonStep
      ⟨Node.dir (setEntry rootEs r₀ (mkChain (s₀ :: sRest) (Node.dir acc true))) true, cwd⟩
      (s₀ :: sRest) [name]
      = some (Sum.inr (s₀ :: sRest, ⟨true, s₀ :: sRest⟩, [])) := by
    simp only [canonStep, hlkChild]
  show canonGo
      ⟨Node.dir (setEntry rootEs r₀ (mkChain (s₀ :: sRest) (Node.dir acc true))) true, cwd⟩
      canonFuel [] ((s₀ :: sRest) ++ [name]) = some (s₀ :: sRest)
  rw [canonGo, hstep, hstep2]
  show canonGo
      ⟨Node.dir (setEntry rootEs r₀ (mkChain (s₀ :: sRest) (Node.dir acc true))) true, cwd⟩
      63 [] ((s₀ :: sRest) ++ []) = some (s₀ :: sRest)
  rw [List.append_nil]
  have := @canonGo_plain
    ⟨Node.dir (setEntry rootEs r₀
      (mkChain (s₀ :: sRest) (Node.dir acc true))) true, cwd⟩
    [] (s₀ :: sRest)
    (Node.dir (setEntry rootEs r₀ (mkChain (s₀ :: sRest) (Node.dir acc true))) true)
    rfl hplainR 63
  simpa using this

/-- The walk of backup_folder over remaining entries that are regular
files or symlinks back to the walked directory: links are skipped by the
canonical-path guard, readable files are appended to the staging
directory, unreadable ones are reported, and the walk succeeds whenever
the fuel exceeds the number of remaining entries. -/
theorem walkEntries_scenario (rootEs : List (String × Node)) (cwd : List String)
    (r₀ s₀ : String) (sRest : List String) (es : List (String × Node)) (wS : Bool)
    (hhead : s₀ ≠ r₀)
    (hplain : plainAt (Node.dir rootEs true) (s₀ :: sRest) = true)
    (hsrc : lookupPlain (Node.dir rootEs true) (s₀ :: sRest) = some (Node.dir es wS)) :
    ∀ (todo : List (String × Node)) (fuel : Nat) (acc : List (String × Node)),
    todo.length < fuel →
    (∀ p ∈ todo, (∃ d r, p.2 = Node.file d r) ∨ p.2 = Node.link ⟨true, s₀ :: sRest⟩) →
    (∀ p ∈ todo, lookupEntry es p.1 = some p.2) →
    (todo.map Prod.fst).Nodup →
    (∀ p ∈ todo, lookupEntry acc p.1 = none) →
    walkEntries fuel (todo.map (fun e => RPath.push ⟨true, s₀ :: sRest⟩ e.1))
        ⟨true, s₀ :: sRest⟩ ⟨true, r₀ :: s₀ :: sRest⟩ ⟨true, [r₀]⟩
        ⟨Node.dir (setEntry rootEs r₀ (mkChain (s₀ :: sRest) (Node.dir acc true))) true, cwd⟩
      = some (Except.ok (),
          ⟨Node.dir (setEntry rootEs r₀ (mkChain (s₀ :: sRest)
              (Node.dir (acc ++ todo.filterMap copyKeep) true))) true, cwd⟩,
          todo.filterMap (copyDiag ⟨true, s₀ :: sRest⟩ ⟨true, r₀ :: s₀ :: sRest⟩)) := by
  intro todo
  induction todo with
  | nil =>
    intro fuel acc hlen hkinds hmem hnodup hfresh
    cases fuel with
    | zero => exact absurd hlen (by simp)
    | succ f => simp [walkEntries]
  | cons p todo ih =>
    intro fuel acc hlen hkinds hmem hnodup hfresh
    obtain ⟨name, node⟩ := p
    cases fuel with
    | zero => exact absurd hlen (by simp)
    | succ f =>
      have hlen' : todo.length < f := by
        simp only [List.length_cons] at hlen
        omega
      simp only [List.map_cons, List.nodup_cons] at hnodup
      obtain ⟨hname, hnodup'⟩ := hnodup
      have hmem₀ : lookupEntry es name = some node :=
        hmem ⟨name, node⟩ (List.mem_cons_self _ _)
      have hkinds' : ∀ q ∈ todo,
          (∃ d₁ r₁, q.2 = Node.file d₁ r₁) ∨ q.2 = Node.link ⟨true, s₀ :: sRest⟩ :=
        fun q hq => hkinds q (List.mem_cons_of_mem _ hq)
      have hmem' : ∀ q ∈ todo, lookupEntry es q.1 = some q.2 :=
        fun q hq => hmem q (List.mem_cons_of_mem _ hq)
      rcases hkinds ⟨name, node⟩ (List.mem_cons_self _ _) with ⟨d, rd, hnode⟩ | hnode
      · -- a regular file entry
        simp only [] at hnode
        subst hnode
        cases f with
        | zero => exact absurd hlen' (by simp)
        | succ f' =>
          have hstat := child_stat rootEs acc cwd r₀ s₀ name sRest es wS (Node.file d rd)
            hhead hplain hsrc hmem₀ (fun t ht => Node.noConfusion ht)
          have hisdir : FS.isDir
              ⟨Node.dir (setEntry rootEs r₀
                (mkChain (s₀ :: sRest) (Node.dir acc true))) true, cwd⟩
              (RPath.push ⟨true, s₀ :: sRest⟩ name) = false := by
            simp [FS.isDir, hstat]
          have hisfile : FS.isFile
              ⟨Node.dir (setEntry rootEs r₀
                (mkChain (s₀ :: sRest) (Node.dir acc true))) true, cwd⟩
              (RPath.push ⟨true, s₀ :: sRest⟩ name) = true := by
            simp [FS.isFile, hstat]
          cases rd with
          | false =>
            have hread : FS.readFileData
                ⟨Node.dir (setEntry rootEs r₀
                  (mkChain (s₀ :: sRest) (Node.dir acc true))) true, cwd⟩
                (RPath.push ⟨true, s₀ :: sRest⟩ name) = none := by
              simp [FS.readFileData, hstat]
            have hcopy : FS.copyFile
                ⟨Node.dir (setEntry rootEs r₀
                  (mkChain (s₀ :: sRest) (Node.dir acc true))) true, cwd⟩
                (RPath.push ⟨true, s₀ :: sRest⟩ name)
                (RPath.push ⟨true, r₀ :: s₀ :: sRest⟩ name) = none := by
              simp [FS.copyFile, hread]
            have hrec := ih (f' + 1) acc hlen' hkinds' hmem' hnodup'
              (fun q hq => hfresh q (List.mem_cons_of_mem _ hq))
            simp only [List.map_cons, walkEntries]
            simp only [hisdir, Bool.false_eq_true, if_false]
            simp only [copy_file_from_folder, hisdir, hisfile, fileName_push, hcopy]
            simp only [Bool.false_eq_true, if_false, if_neg (by simp : ¬(true = false))]
            rw [hrec]
            simp [List.filterMap_cons, copyKeep, copyDiag]
          | true =>
            have hread : FS.readFileData
                ⟨Node.dir (setEntry rootEs r₀
                  (mkChain (s₀ :: sRest) (Node.dir acc true))) true, cwd⟩
                (RPath.push ⟨true, s₀ :: sRest⟩ name) = some d := by
              simp [FS.readFileData, hstat]
            obtain ⟨root', hroot', hwrite⟩ := @writeFile_plain
              ⟨Node.dir (setEntry rootEs r₀
                (mkChain (s₀ :: sRest) (Node.dir acc true))) true, cwd⟩
              (RPath.push ⟨true, r₀ :: s₀ :: sRest⟩ name)
              (r₀ :: s₀ :: sRest) name acc true d rfl
              (plainAt_R rootEs acc r₀ (s₀ :: sRest))
              (lookupPlain_R rootEs acc r₀ (s₀ :: sRest))
              (Or.inl ⟨hfresh ⟨name, Node.file d true⟩ (List.mem_cons_self _ _), rfl⟩)
            have hroot'' : replaceAt
                (Node.dir (setEntry rootEs r₀
                  (mkChain (s₀ :: sRest) (Node.dir acc true))) true)
                (r₀ :: s₀ :: sRest)
                (Node.dir (setEntry acc name (Node.file d true)) true) = some root' := hroot'
            have hroot'eq : root' = Node.dir (setEntry rootEs r₀ (mkChain (s₀ :: sRest)
                (Node.dir (acc ++ [(name, Node.file d true)]) true))) true := by
              rw [replaceAt_R rootEs acc r₀ (s₀ :: sRest)] at hroot''
              simp only [Option.some.injEq] at hroot''
              rw [← hroot'',
                setEntry_of_not_mem (hfresh ⟨name, Node.file d true⟩ (List.mem_cons_self _ _))]
            have hcopy : FS.copyFile
                ⟨Node.dir (setEntry rootEs r₀
                  (mkChain (s₀ :: sRest) (Node.dir acc true))) true, cwd⟩
                (RPath.push ⟨true, s₀ :: sRest⟩ name)
                (RPath.push ⟨true, r₀ :: s₀ :: sRest⟩ name) = some ⟨root', cwd⟩ := by
              simp only [FS.copyFile, hread]
              rw [hwrite]
            have hfresh' : ∀ q ∈ todo,
                lookupEntry (acc ++ [(name, Node.file d true)]) q.1 = none := by
              intro q hq
              refine lookupEntry_append_none (hfresh q (List.mem_cons_of_mem _ hq)) ?_
              have hne : name ≠ q.1 := fun hh => hname (hh ▸ List.mem_map_of_mem Prod.fst hq)
              simp [lookupEntry, hne]
            have hrec := ih (f' + 1) (acc ++ [(name, Node.file d true)]) hlen'
              hkinds' hmem' hnodup' hfresh'
            simp only [List.map_cons, walkEntries]
            simp only [hisdir, Bool.false_eq_true, if_false]
            simp only [copy_file_from_folder, hisdir, hisfile, fileName_push, hcopy]
            simp only [Bool.false_eq_true, if_false, if_neg (by simp : ¬(true = false))]
            rw [hroot'eq, hrec]
            simp [List.filterMap_cons, copyKeep, copyDiag, List.append_assoc]
      · -- the self-referential symlink entry
        simp only [] at hnode
        subst hnode
        have hmemL : lookupEntry es name = some (Node.link ⟨true, s₀ :: sRest⟩) := hmem₀
        have hplainR : plainAt
            (Node.dir (setEntry rootEs r₀
              (mkChain (s₀ :: sRest) (Node.dir acc true))) true)
            (s₀ :: sRest) = true := by
          rw [plainAt_top_ne _ hhead]
          exact hplain
        have hlkR : lookupPlain
            (Node.dir (setEntry rootEs r₀
              (mkChain (s₀ :: sRest) (Node.dir acc true))) true)
            (s₀ :: sRest) = some (Node.dir es wS) := by
          rw [lookupPlain_top_ne _ hhead]
          exact hsrc
        have hcanonL := link_child_canon rootEs acc cwd r₀ s₀ name sRest es wS
          hhead hplain hsrc hmemL
        have hcanonF : FS.canon
            ⟨Node.dir (setEntry rootEs r₀
              (mkChain (s₀ :: sRest) (Node.dir acc true))) true, cwd⟩
            ⟨true, s₀ :: sRest⟩ = some (s₀ :: sRest) := canon_plain (by exact hplainR)
        have hstatL : FS.stat
            ⟨Node.dir (setEntry rootEs r₀
              (mkChain (s₀ :: sRest) (Node.dir acc true))) true, cwd⟩
            (RPath.push ⟨true, s₀ :: sRest⟩ name) = some (Node.dir es wS) := by
          rw [FS.stat, hcanonL]
          exact hlkR
        have hisdirL : FS.isDir
            ⟨Node.dir (setEntry rootEs r₀
              (mkChain (s₀ :: sRest) (Node.dir acc true))) true, cwd⟩
            (RPath.push ⟨true, s₀ :: sRest⟩ name) = true := by
          simp [FS.isDir, hstatL]
        have hrec := ih f acc hlen' hkinds' hmem' hnodup'
          (fun q hq => hfresh q (List.mem_cons_of_mem _ hq))
        simp only [List.map_cons, walkEntries]
        simp only [hisdirL, if_neg (by simp : ¬(true = false)), hcanonL, hcanonF]
        simp only [ne_eq, not_true_eq_false, if_neg (by simp : ¬(s₀ :: sRest ≠ s₀ :: sRest))]
        rw [hrec]
        simp [List.filterMap_cons, copyKeep, copyDiag]

/-! # Claim C5 -/

/-- Claim C5: mirroring a directory that contains a symbolic link
resolving back to that same directory terminates for every sufficiently
large link-recursion budget: the self-referential child is skipped by the
canonical-path comparison and every other (readable regular file) sibling
is still copied into the staged mirror. -/
theorem claim_C5 (fuel : Nat) (rootEs : List (String × Node)) (cwd : List String)
    (r₀ s₀ s : String) (sRest : List String)
    (pre post : List (String × Node)) (wS : Bool)
    (hhead : s₀ ≠ r₀)
    (hr₀ : lookupEntry rootEs r₀ = none)
    (hplain : plainAt (Node.dir rootEs true) (s₀ :: sRest) = true)
    (hsrc : lookupPlain (Node.dir rootEs true) (s₀ :: sRest)
      = some (Node.dir (pre ++ (s, Node.link ⟨true, s₀ :: sRest⟩) :: post) wS))
    (hpre : ∀ p ∈ pre, ∃ d, p.2 = Node.file d true)
    (hpost : ∀ p ∈ post, ∃ d, p.2 = Node.file d true)
    (hnodup : (((pre ++ (s, Node.link ⟨true, s₀ :: sRest⟩) :: post).map Prod.fst)).Nodup) :
    backup_folder ((pre ++ (s, Node.link ⟨true, s₀ :: sRest⟩) :: post).length + fuel + 3)
        ⟨true, s₀ :: sRest⟩ ⟨true, [r₀]⟩ ⟨Node.dir rootEs true, cwd⟩
      = some (Except.ok (),
          ⟨Node.dir (setEntry rootEs r₀ (mkChain (s₀ :: sRest)
              (Node.dir (pre ++ post) true))) true, cwd⟩, []) := by
  have hstat₀ : FS.stat ⟨Node.dir rootEs true, cwd⟩ ⟨true, s₀ :: sRest⟩
      = some (Node.dir (pre ++ (s, Node.link ⟨true, s₀ :: sRest⟩) :: post) wS) := by
    rw [stat_plain (by exact hplain)]
    exact hsrc
  have hisdir₀ : FS.isDir ⟨Node.dir rootEs true, cwd⟩ ⟨true, s₀ :: sRest⟩ = true := by
    simp [FS.isDir, hstat₀]
  have hcreate := createDirAll_fresh rootEs cwd r₀ (s₀ :: sRest) hr₀
  have hcfbs : create_folder_in_backup_structure ⟨true, s₀ :: sRest⟩ ⟨true, [r₀]⟩
      ⟨Node.dir rootEs true, cwd⟩
      = Except.ok (⟨true, r₀ :: s₀ :: sRest⟩,
          ⟨Node.dir (setEntry rootEs r₀
            (mkChain (s₀ :: sRest) (Node.dir [] true))) true, cwd⟩) := by
    simp [create_folder_in_backup_structure, stripRootDir, RPath.join, hcreate]
  have hplainR : plainAt
      (Node.dir (setEntry rootEs r₀ (mkChain (s₀ :: sRest) (Node.dir [] true))) true)
      (s₀ :: sRest) = true := by
    rw [plainAt_top_ne _ hhead]
    exact hplain
  have hlkR : lookupPlain
      (Node.dir (setEntry rootEs r₀ (mkChain (s₀ :: sRest) (Node.dir [] true))) true)
      (s₀ :: sRest)
      = some (Node.dir (pre ++ (s, Node.link ⟨true, s₀ :: sRest⟩) :: post) wS) := by
    rw [lookupPlain_top_ne _ hhead]
    exact hsrc
  have hstat₁ : FS.stat
      ⟨Node.dir (setEntry rootEs r₀ (mkChain (s₀ :: sRest) (Node.dir [] true))) true, cwd⟩
      ⟨true, s₀ :: sRest⟩
      = some (Node.dir (pre ++ (s, Node.link ⟨true, s₀ :: sRest⟩) :: post) wS) := by
    rw [stat_plain (by exact hplainR)]
    exact hlkR
  have hisdir₁ : FS.isDir
      ⟨Node.dir (setEntry rootEs r₀ (mkChain (s₀ :: sRest) (Node.dir [] true))) true, cwd⟩
      ⟨true, s₀ :: sRest⟩ = true := by
    simp [FS.isDir, hstat₁]
  have hcanonF : FS.canon
      ⟨Node.dir (setEntry rootEs r₀ (mkChain (s₀ :: sRest) (Node.dir [] true))) true, cwd⟩
      ⟨true, s₀ :: sRest⟩ = some (s₀ :: sRest) := canon_plain (by exact hplainR)
  have hkinds : ∀ p ∈ pre ++ (s, Node.link ⟨true, s₀ :: sRest⟩) :: post,
      (∃ d₁ r₁, p.2 = Node.file d₁ r₁) ∨ p.2 = Node.link ⟨true, s₀ :: sRest⟩ := by
    intro p hp
    rcases List.mem_append.mp hp with hp | hp
    · obtain ⟨d₁, hd₁⟩ := hpre p hp
      exact Or.inl ⟨d₁, true, hd₁⟩
    · rcases List.mem_cons.mp hp with hp | hp
      · subst hp
        exact Or.inr rfl
      · obtain ⟨d₁, hd₁⟩ := hpost p hp
        exact Or.inl ⟨d₁, true, hd₁⟩
  have hwalk := walkEntries_scenario rootEs cwd r₀ s₀ sRest
    (pre ++ (s, Node.link ⟨true, s₀ :: sRest⟩) :: post) wS hhead hplain hsrc
    (pre ++ (s, Node.link ⟨true, s₀ :: sRest⟩) :: post)
    ((pre ++ (s, Node.link ⟨true, s₀ :: sRest⟩) :: post).length + fuel + 1) []
    (by omega) hkinds (lookupEntry_of_mem_nodup hnodup) hnodup (fun q hq => rfl)
  have hkeep : (pre ++ (s, Node.link ⟨true, s₀ :: sRest⟩) :: post).filterMap copyKeep
      = pre ++ post := by
    rw [List.filterMap_append, List.filterMap_cons,
      filterMap_copyKeep_readable hpre, filterMap_copyKeep_readable hpost]
    rfl
  have hdiag : (pre ++ (s, Node.link ⟨true, s₀ :: sRest⟩) :: post).filterMap
        (copyDiag ⟨true, s₀ :: sRest⟩ ⟨true, r₀ :: s₀ :: sRest⟩)
      = [] := by
    rw [List.filterMap_append, List.filterMap_cons,
      filterMap_copyDiag_readable _ _ hpre, filterMap_copyDiag_readable _ _ hpost]
    rfl
  rw [List.nil_append, hkeep, hdiag] at hwalk
  have h3 : (pre ++ (s, Node.link ⟨true, s₀ :: sRest⟩) :: post).length + fuel + 3
      = ((pre ++ (s, Node.link ⟨true, s₀ :: sRest⟩) :: post).length + fuel + 2) + 1 := rfl
  rw [h3]
  simp only [backup_folder]
  simp only [hisdir₁, hisdir₀, if_neg (by simp : ¬(true = false))]
  rw [hcfbs]
  simp only []
  rw [hstat₁]
  simp only []
  have h2 : (pre ++ (s, Node.link ⟨true, s₀ :: sRest⟩) :: post).length + fuel + 2
      = ((pre ++ (s, Node.link ⟨true, s₀ :: sRest⟩) :: post).length + fuel + 1) + 1 := rfl
  rw [h2]
  simp only [walkEntries]
  simp only [hisdir₁, hcanonF]
  simp only [ne_eq, not_true_eq_false,
    if_neg (by simp : ¬(s₀ :: sRest ≠ s₀ :: sRest))]
  exact hwalk

/-- Concrete instance of claim C5: /src holds files a and b and the
symlink s pointing back at /src; mirroring /src succeeds, copies a and b
and skips s. -/
theorem claim_C5_witness :
    backup_folder 6 ⟨true, [("src")]⟩ ⟨true, [("bk")]⟩
        ⟨Node.dir [(("src"), Node.dir [(("a"), Node.file [1] true),
            (("s"), Node.link ⟨true, [("src")]⟩),
            (("b"), Node.file [2] true)] true)] true, []⟩
      = some (Except.ok (),
          ⟨Node.dir (setEntry [(("src"), Node.dir [(("a"), Node.file [1] true),
              (("s"), Node.link ⟨true, [("src")]⟩),
              (("b"), Node.file [2] true)] true)] ("bk")
              (mkChain [("src")] (Node.dir [(("a"), Node.file [1] true),
                (("b"), Node.file [2] true)] true))) true, []⟩, []) :=
  claim_C5 0
    [(("src"), Node.dir [(("a"), Node.file [1] true),
      (("s"), Node.link ⟨true, [("src")]⟩), (("b"), Node.file [2] true)] true)]
    [] ("bk") ("src") ("s") []
    [(("a"), Node.file [1] true)] [(("b"), Node.file [2] true)] true
    (by decide) rfl rfl rfl
    (by intro p hp; rw [List.mem_singleton] at hp; subst hp; exact ⟨[1], rfl⟩)
    (by intro p hp; rw [List.mem_singleton] at hp; subst hp; exact ⟨[2], rfl⟩)
    (by decide)

/-! # Encrypting and removing the plaintext -/

theorem append_single_not_pre (xs : List String) (c : String) : ¬ ((xs ++ [c]) <+: xs) := by
  intro ⟨u, hu⟩
  have hl := congrArg List.length hu
  simp [List.length_append] at hl

theorem not_mem_of_lookupEntry_none {es : List (String × Node)} {c : String}
    (h : lookupEntry es c = none) : c ∉ es.map Prod.fst := by
  induction es with
  | nil => simp
  | cons e rest ih =>
    obtain ⟨k, y⟩ := e
    by_cases hk : k = c
    · rw [lookupEntry, if_pos hk] at h
      exact absurd h (by simp)
    · rw [lookupEntry, if_neg hk] at h
      simp only [List.map_cons, List.mem_cons]
      intro hmem
      rcases hmem with hmem | hmem
      · exact hk hmem.symm
      · exact ih h hmem

/-- plainAt at the parent survives replacing one of the parent's entries
by a new node. -/
theorem plainAt_after_set {n root' : Node} {pcs : List String} {es : List (String × Node)}
    {w w' : Bool} {c : String} {x : Node}
    (hlk : lookupPlain n pcs = some (Node.dir es w))
    (hrep : replaceAt n pcs (Node.dir (setEntry es c x) w') = some root')
    (hp : plainAt n pcs = true) :
    plainAt root' pcs = true := by
  rw [plainAt_replace_frame hlk hrep
    (fun d hd => lookupEntry_setEntry_ne _ _ hd) pcs (append_single_not_pre pcs c)]
  exact hp

/-- plainAt at the parent survives removing one of the parent's entries. -/
theorem plainAt_after_remove {n root' : Node} {pcs : List String}
    {es : List (String × Node)} {w w' : Bool} {c : String}
    (hlk : lookupPlain n pcs = some (Node.dir es w))
    (hrep : replaceAt n pcs (Node.dir (removeEntry es c) w') = some root')
    (hp : plainAt n pcs = true) :
    plainAt root' pcs = true := by
  rw [plainAt_replace_frame hlk hrep
    (fun d hd => lookupEntry_removeEntry_ne _ hd) pcs (append_single_not_pre pcs c)]
  exact hp

/-! # Claim C2 -/

/-- Claim C2 (amended to the library implementation): the library
encrypt_file with a valid recipient key on a readable plaintext file in a
writable directory succeeds, after which the complete ciphertext file
exists under the input name with its extension replaced by tar.age and
the plaintext entry is gone; with an unparsable recipient it fails with
the filesystem untouched; and when removing the plaintext fails (here:
unwritable directory, ciphertext overwriting an existing file) it reports
the removal error while the plaintext file is still intact.  (The driver
encrypt_file instead returns success without removing the plaintext.) -/
theorem claim_C2 (n m : Node) (cwd pcs qcs : List String) (aLast qLast : String)
    (esP esQ : List (String × Node)) (data dq d₀ : List Nat) (rB : Bool) (key bkey : String)
    (hkey : isValidAgeKey key = true)
    (hbkey : isValidAgeKey bkey = false)
    (h1 : plainAt n pcs = true)
    (h2 : lookupPlain n pcs = some (Node.dir esP true))
    (h3 : lookupEntry esP aLast = some (Node.file data true))
    (h4 : lookupEntry esP (withExtName aLast ("tar.age")) = none)
    (h5 : (esP.map Prod.fst).Nodup)
    (g1 : plainAt m qcs = true)
    (g2 : lookupPlain m qcs = some (Node.dir esQ false))
    (g3 : lookupEntry esQ qLast = some (Node.file dq true))
    (g4 : lookupEntry esQ (withExtName qLast ("tar.age")) = some (Node.file d₀ rB)) :
    (∃ fsS : FS,
      encrypt_file ⟨true, pcs ++ [aLast]⟩ key ⟨n, cwd⟩ = (Except.ok (), fsS)
      ∧ fsS.readFileData ⟨true, pcs ++ [withExtName aLast ("tar.age")]⟩
          = some (ageEncrypt key data)
      ∧ lookupPlain fsS.root (pcs ++ [aLast]) = none)
    ∧ encrypt_file ⟨true, pcs ++ [aLast]⟩ bkey ⟨n, cwd⟩
        = (Except.error (BErr.invalidRecipient bkey), ⟨n, cwd⟩)
    ∧ (∃ fsE : FS,
      encrypt_file ⟨true, qcs ++ [qLast]⟩ key ⟨m, cwd⟩
        = (Except.error (BErr.removeFileFailed ⟨true, qcs ++ [qLast]⟩), fsE)
      ∧ fsE.readFileData ⟨true, qcs ++ [qLast]⟩ = some dq) := by
  have houtP : RPath.withExtension ⟨true, pcs ++ [aLast]⟩ ("tar.age")
      = ⟨true, pcs ++ [withExtName aLast ("tar.age")]⟩ := by
    simp [RPath.withExtension, List.getLast?_concat, List.dropLast_concat]
  have houtQ : RPath.withExtension ⟨true, qcs ++ [qLast]⟩ ("tar.age")
      = ⟨true, qcs ++ [withExtName qLast ("tar.age")]⟩ := by
    simp [RPath.withExtension, List.getLast?_concat, List.dropLast_concat]
  have haneP : aLast ≠ withExtName aLast ("tar.age") :=
    fun hh => (withExtName_tar_age_ne aLast) hh.symm
  have haneQ : qLast ≠ withExtName qLast ("tar.age") :=
    fun hh => (withExtName_tar_age_ne qLast) hh.symm
  refine ⟨?_, ?_, ?_⟩
  · -- success: ciphertext complete, plaintext removed
    have hplainP : plainAt n (pcs ++ [aLast]) = true :=
      plainAt_append_of h1 h2
        (plainAt_cons_entry h3 (fun t ht => Node.noConfusion ht) (by rfl))
    have hlkP : lookupPlain n (pcs ++ [aLast]) = some (Node.file data true) := by
      rw [lookupPlain_append, h2, Option.some_bind, lookupPlain_cons_entry h3]
      rfl
    have hreadP : FS.readFileData ⟨n, cwd⟩ ⟨true, pcs ++ [aLast]⟩ = some data := by
      rw [FS.readFileData, stat_plain (by exact hplainP)]
      rw [show FS.absComps ⟨n, cwd⟩ ⟨true, pcs ++ [aLast]⟩ = pcs ++ [aLast] from rfl, hlkP]
    obtain ⟨root₁, hrep₁, hwrite₁⟩ := @writeFile_plain
      ⟨n, cwd⟩ ⟨true, pcs ++ [withExtName aLast ("tar.age")]⟩
      pcs (withExtName aLast ("tar.age")) esP true
      [] rfl h1 h2 (Or.inl ⟨h4, rfl⟩)
    have hwrite₁' : FS.writeFile ⟨n, cwd⟩ ⟨true, pcs ++ [withExtName aLast ("tar.age")]⟩ []
        = some ⟨root₁, cwd⟩ := hwrite₁
    have hlk₁ : lookupPlain root₁ pcs
        = some (Node.dir (setEntry esP (withExtName aLast ("tar.age"))
            (Node.file [] true)) true) :=
      lookupPlain_replaceAt_self hrep₁
    have hplain₁ : plainAt root₁ pcs = true := plainAt_after_set h2 hrep₁ h1
    obtain ⟨root₂, hrep₂, hwrite₂⟩ := @writeFile_plain
      ⟨root₁, cwd⟩ ⟨true, pcs ++ [withExtName aLast ("tar.age")]⟩
      pcs (withExtName aLast ("tar.age"))
      (setEntry esP (withExtName aLast ("tar.age")) (Node.file [] true)) true
      (ageEncrypt key data) rfl hplain₁ hlk₁
      (Or.inr ⟨[], true, lookupEntry_setEntry_self _ _ _⟩)
    have hwrite₂' : FS.writeFile ⟨root₁, cwd⟩
        ⟨true, pcs ++ [withExtName aLast ("tar.age")]⟩ (ageEncrypt key data)
        = some ⟨root₂, cwd⟩ := hwrite₂
    have hplain₂ : plainAt root₂ pcs = true := plainAt_after_set hlk₁ hrep₂ hplain₁
    rw [setEntry_setEntry] at hrep₂
    have hlk₂ : lookupPlain root₂ pcs
        = some (Node.dir (setEntry esP (withExtName aLast ("tar.age"))
            (Node.file (ageEncrypt key data) true)) true) :=
      lookupPlain_replaceAt_self hrep₂
    have hfile₂ : lookupEntry (setEntry esP (withExtName aLast ("tar.age"))
        (Node.file (ageEncrypt key data) true)) aLast = some (Node.file data true) := by
      rw [lookupEntry_setEntry_ne _ _ haneP]
      exact h3
    obtain ⟨root₃, hrep₃, hremove⟩ := @removeFile_plain
      ⟨root₂, cwd⟩ ⟨true, pcs ++ [aLast]⟩ pcs aLast
      (setEntry esP (withExtName aLast ("tar.age")) (Node.file (ageEncrypt key data) true))
      data true rfl hplain₂ hlk₂ hfile₂
    have hremove' : FS.removeFile ⟨root₂, cwd⟩ ⟨true, pcs ++ [aLast]⟩
        = some ⟨root₃, cwd⟩ := hremove
    refine ⟨⟨root₃, cwd⟩, ?_, ?_, ?_⟩
    · simp only [encrypt_file, houtP, hkey]
      rw [hreadP]
      simp only []
      rw [hwrite₁']
      simp only []
      rw [hwrite₂']
      simp only []
      rw [hremove']
      rfl
    · -- the complete ciphertext file exists
      have hlk₃ : lookupPlain root₃ pcs
          = some (Node.dir (removeEntry (setEntry esP (withExtName aLast ("tar.age"))
              (Node.file (ageEncrypt key data) true)) aLast) true) :=
        lookupPlain_replaceAt_self hrep₃
      have hplain₃ : plainAt root₃ pcs = true := plainAt_after_remove hlk₂ hrep₃ hplain₂
      have hoentry : lookupEntry (removeEntry (setEntry esP (withExtName aLast ("tar.age"))
          (Node.file (ageEncrypt key data) true)) aLast) (withExtName aLast ("tar.age"))
          = some (Node.file (ageEncrypt key data) true) := by
        rw [lookupEntry_removeEntry_ne _ (fun hh => haneP hh.symm)]
        exact lookupEntry_setEntry_self _ _ _
      have hplainO : plainAt root₃ (pcs ++ [withExtName aLast ("tar.age")]) = true :=
        plainAt_append_of hplain₃ hlk₃
          (plainAt_cons_entry hoentry (fun t ht => Node.noConfusion ht) (by rfl))
      rw [FS.readFileData, stat_plain (by exact hplainO)]
      rw [show FS.absComps ⟨root₃, cwd⟩ ⟨true, pcs ++ [withExtName aLast ("tar.age")]⟩
          = pcs ++ [withExtName aLast ("tar.age")] from rfl]
      rw [lookupPlain_append, hlk₃, Option.some_bind, lookupPlain_cons_entry hoentry]
      rfl
    · -- the plaintext entry is gone
      have hlk₃ : lookupPlain root₃ pcs
          = some (Node.dir (removeEntry (setEntry esP (withExtName aLast ("tar.age"))
              (Node.file (ageEncrypt key data) true)) aLast) true) :=
        lookupPlain_replaceAt_self hrep₃
      have hnd₂ : ((setEntry esP (withExtName aLast ("tar.age"))
          (Node.file (ageEncrypt key data) true)).map Prod.fst).Nodup := by
        rw [setEntry_of_not_mem h4, List.map_append]
        refine List.Nodup.append h5 (List.nodup_singleton _) ?_
        intro a ha hb
        rw [List.map_singleton, List.mem_singleton] at hb
        subst hb
        exact not_mem_of_lookupEntry_none h4 ha
      have hgone : lookupEntry (removeEntry (setEntry esP (withExtName aLast ("tar.age"))
          (Node.file (ageEncrypt key data) true)) aLast) aLast = none :=
        lookupEntry_removeEntry_self hnd₂
      rw [lookupPlain_append, hlk₃, Option.some_bind]
      show lookupPlain _ ([aLast]) = none
      simp only [lookupPlain, hgone]
  · -- invalid recipient: error before touching the filesystem
    simp [encrypt_file, hbkey]
  · -- removal failure: error reported, plaintext intact
    have hplainQ : plainAt m (qcs ++ [qLast]) = true :=
      plainAt_append_of g1 g2
        (plainAt_cons_entry g3 (fun t ht => Node.noConfusion ht) (by rfl))
    have hlkQ : lookupPlain m (qcs ++ [qLast]) = some (Node.file dq true) := by
      rw [lookupPlain_append, g2, Option.some_bind, lookupPlain_cons_entry g3]
      rfl
    have hreadQ : FS.readFileData ⟨m, cwd⟩ ⟨true, qcs ++ [qLast]⟩ = some dq := by
      rw [FS.readFileData, stat_plain (by exact hplainQ)]
      rw [show FS.absComps ⟨m, cwd⟩ ⟨true, qcs ++ [qLast]⟩ = qcs ++ [qLast] from rfl, hlkQ]
    obtain ⟨root₁, hrep₁, hwrite₁⟩ := @writeFile_plain
      ⟨m, cwd⟩ ⟨true, qcs ++ [withExtName qLast ("tar.age")]⟩
      qcs (withExtName qLast ("tar.age")) esQ false
      [] rfl g1 g2 (Or.inr ⟨d₀, rB, g4⟩)
    have hwrite₁' : FS.writeFile ⟨m, cwd⟩ ⟨true, qcs ++ [withExtName qLast ("tar.age")]⟩ []
        = some ⟨root₁, cwd⟩ := hwrite₁
    have hlk₁ : lookupPlain root₁ qcs
        = some (Node.dir (setEntry esQ (withExtName qLast ("tar.age"))
            (Node.file [] true)) false) :=
      lookupPlain_replaceAt_self hrep₁
    have hplain₁ : plainAt root₁ qcs = true := plainAt_after_set g2 hrep₁ g1
    obtain ⟨root₂, hrep₂, hwrite₂⟩ := @writeFile_plain
      ⟨root₁, cwd⟩ ⟨true, qcs ++ [withExtName qLast ("tar.age")]⟩
      qcs (withExtName qLast ("tar.age"))
      (setEntry esQ (withExtName qLast ("tar.age")) (Node.file [] true)) false
      (ageEncrypt key dq) rfl hplain₁ hlk₁
      (Or.inr ⟨[], true, lookupEntry_setEntry_self _ _ _⟩)
    have hwrite₂' : FS.writeFile ⟨root₁, cwd⟩
        ⟨true, qcs ++ [withExtName qLast ("tar.age")]⟩ (ageEncrypt key dq)
        = some ⟨root₂, cwd⟩ := hwrite₂
    have hplain₂ : plainAt root₂ qcs = true := plainAt_after_set hlk₁ hrep₂ hplain₁
    rw [setEntry_setEntry] at hrep₂
    have hlk₂ : lookupPlain root₂ qcs
        = some (Node.dir (setEntry esQ (withExtName qLast ("tar.age"))
            (Node.file (ageEncrypt key dq) true)) false) :=
      lookupPlain_replaceAt_self hrep₂
    have hrem : FS.removeFile ⟨root₂, cwd⟩ ⟨true, qcs ++ [qLast]⟩ = none := by
      rw [FS.removeFile, parentAndName_plain rfl hplain₂]
      simp only [hlk₂]
      simp
    refine ⟨⟨root₂, cwd⟩, ?_, ?_⟩
    · simp only [encrypt_file, houtQ, hkey]
      rw [hreadQ]
      simp only []
      rw [hwrite₁']
      simp only []
      rw [hwrite₂']
      simp only []
      rw [hrem]
      rfl
    · have hfile₂ : lookupEntry (setEntry esQ (withExtName qLast ("tar.age"))
          (Node.file (ageEncrypt key dq) true)) qLast = some (Node.file dq true) := by
        rw [lookupEntry_setEntry_ne _ _ haneQ]
        exact g3
      have hplainQ₂ : plainAt root₂ (qcs ++ [qLast]) = true :=
        plainAt_append_of hplain₂ hlk₂
          (plainAt_cons_entry hfile₂ (fun t ht => Node.noConfusion ht) (by rfl))
      rw [FS.readFileData, stat_plain (by exact hplainQ₂)]
      rw [show FS.absComps ⟨root₂, cwd⟩ ⟨true, qcs ++ [qLast]⟩ = qcs ++ [qLast] from rfl]
      rw [lookupPlain_append, hlk₂, Option.some_bind, lookupPlain_cons_entry hfile₂]
      rfl

/-- Concrete instance of claim C2: encrypting /a.tar with a valid key
replaces it by the complete a.tar.age; a bad key changes nothing; with an
unwritable root holding b.tar and an overwritable b.tar.age, the removal
of b.tar fails, the error is reported and b.tar is intact. -/
theorem claim_C2_witness :
    (∃ fsS : FS,
      encrypt_file ⟨true, [("a.tar")]⟩ ("age1k")
          ⟨Node.dir [(("a.tar"), Node.file [7] true)] true, []⟩ = (Except.ok (), fsS)
      ∧ fsS.readFileData ⟨true, [withExtName ("a.tar") ("tar.age")]⟩
          = some (ageEncrypt ("age1k") [7])
      ∧ lookupPlain fsS.root [("a.tar")] = none)
    ∧ encrypt_file ⟨true, [("a.tar")]⟩ ("bad")
        ⟨Node.dir [(("a.tar"), Node.file [7] true)] true, []⟩
        = (Except.error (BErr.invalidRecipient ("bad")),
            ⟨Node.dir [(("a.tar"), Node.file [7] true)] true, []⟩)
    ∧ (∃ fsE : FS,
      encrypt_file ⟨true, [("b.tar")]⟩ ("age1k")
          ⟨Node.dir [(("b.tar"), Node.file [3] true),
            (("b.tar.age"), Node.file [0] true)] false, []⟩
        = (Except.error (BErr.removeFileFailed ⟨true, [("b.tar")]⟩), fsE)
      ∧ fsE.readFileData ⟨true, [("b.tar")]⟩ = some [3]) :=
  claim_C2 (Node.dir [(("a.tar"), Node.file [7] true)] true)
    (Node.dir [(("b.tar"), Node.file [3] true), (("b.tar.age"), Node.file [0] true)] false)
    [] [] [] ("a.tar") ("b.tar")
    [(("a.tar"), Node.file [7] true)]
    [(("b.tar"), Node.file [3] true), (("b.tar.age"), Node.file [0] true)]
    [7] [3] [0] true ("age1k") ("bad")
    (by decide) (by decide) rfl rfl rfl rfl (by decide) rfl rfl rfl rfl

end LaptopBackup
